import Mathlib

/-!
Verification of the line-oriented PostgreSQL schema subsetting tool
(`main.go`): statement scanning, entity extraction, relationship
inference, subset filtering and output assembly.  Strings are modelled
as lists of characters; Go's regular-expression searches are embedded as
deterministic scanning functions that follow the leftmost-first
(backtracking) semantics of each concrete pattern used by the source.
Go map iteration order is randomized between runs; the maps used by the
source are modelled as insertion-ordered association lists with
overwrite-in-place, and a run's observable iteration order is an
arbitrary permutation of the entries (see `ValidRun`).
-/

namespace PgStruct

abbrev Str := List Char

def sl (s : String) : Str := s.toList

/-- ASCII lowering, character by character; models Go case folding on the
ASCII inputs handled by the tool. -/
def lower (s : Str) : Str := s.map Char.toLower

/-- Models `strings.EqualFold` on ASCII data. -/
def eqFold (a b : Str) : Bool := lower a == lower b

/-- The character class `[a-zA-Z0-9_]` used throughout the source's patterns. -/
def isWordChar (c : Char) : Bool :=
  ('a' ≤ c && c ≤ 'z') || ('A' ≤ c && c ≤ 'Z') || ('0' ≤ c && c ≤ '9') || c == '_'

/-- Go regexp `\s`: `[\t\n\f\r ]` (form feed is code 12). -/
def isWs (c : Char) : Bool :=
  c == ' ' || c == '\t' || c == '\n' || c == Char.ofNat 12 || c == '\r'

/-- Whitespace recognised by `strings.TrimSpace` (ASCII part; vertical tab
is code 11, form feed is code 12). -/
def isSpaceGo (c : Char) : Bool :=
  c == ' ' || c == '\t' || c == '\n' || c == Char.ofNat 11 ||
    c == Char.ofNat 12 || c == '\r'

def isPfx : Str → Str → Bool
  | [], _ => true
  | _ :: _, [] => false
  | p :: ps, c :: cs => p == c && isPfx ps cs

/-- Models `strings.Contains s pat`. -/
def containsSub : Str → Str → Bool
  | [], pat => pat == []
  | c :: rest, pat => isPfx pat (c :: rest) || containsSub rest pat

/-- `strings.Split(s, sep)[0]`: the part of `s` before the first occurrence
of `sep` (all of `s` when `sep` does not occur). -/
def takeBeforeFirst : Str → Str → Str
  | [], _ => []
  | c :: rest, sep =>
    if isPfx sep (c :: rest) then [] else c :: takeBeforeFirst rest sep

def trimSpace (s : Str) : Str :=
  ((s.dropWhile isSpaceGo).reverse.dropWhile isSpaceGo).reverse

def isSfx (sfx s : Str) : Bool := isPfx sfx.reverse s.reverse

/-- Models `strings.TrimSuffix`. -/
def trimSuffix (s sfx : Str) : Str :=
  if isSfx sfx s then s.take (s.length - sfx.length) else s

/-- Models `strings.Split` for a non-empty separator (fuelled scan). -/
def splitAllAux : Nat → Str → Str → Str → List Str
  | 0, s, _, cur => [(cur.reverse ++ s)]
  | _, [], _, cur => [cur.reverse]
  | f + 1, c :: rest, sep, cur =>
    if isPfx sep (c :: rest) then
      cur.reverse :: splitAllAux f ((c :: rest).drop sep.length) sep []
    else splitAllAux f rest sep (c :: cur)

def splitAll (s sep : Str) : List Str := splitAllAux s.length s sep []

/-- Splits accumulated text into the lines `bufio.Scanner` would deliver:
pieces between newlines, with no empty final piece for a trailing newline. -/
def splitLinesAux : Str → Str → List Str
  | [], cur => [cur.reverse]
  | c :: rest, cur =>
    if c == '\n' then cur.reverse :: splitLinesAux rest []
    else splitLinesAux rest (c :: cur)

def dropLastEmpty (ps : List Str) : List Str :=
  match ps.getLast? with
  | some [] => ps.dropLast
  | _ => ps

def splitLines (s : Str) : List Str :=
  if s == [] then [] else dropLastEmpty (splitLinesAux s [])

/-- Signed parenthesis count of one line:
`strings.Count(line, "(") - strings.Count(line, ")")`. -/
def parDelta (l : Str) : Int :=
  (l.countP (fun c => c == '(') : Int) - (l.countP (fun c => c == ')') : Int)

structure Table where
  name : Str
  schema : Str
  sql : Str
deriving DecidableEq

structure EnumType where
  name : Str
  schema : Str
  sql : Str
deriving DecidableEq

structure ForeignKey where
  sql : Str
  fromSchema : Str
  fromTable : Str
  toSchema : Str
  toTable : Str
deriving DecidableEq

/-! ### Association lists with overwrite-in-place

Go's maps are unordered; the canonical model below is an association list
keyed by string, where a repeated insertion overwrites the stored value in
place.  A real run iterates the entries in an arbitrary order, which is
captured later by permutation hypotheses. -/

def insEnt {α : Type} : List (Str × α) → Str → α → List (Str × α)
  | [], k, v => [(k, v)]
  | (k', v') :: m, k, v =>
    if k' == k then (k, v) :: m else (k', v') :: insEnt m k v

def lookupEnt {α : Type} : List (Str × α) → Str → Option α
  | [], _ => none
  | (k', v') :: m, k => if k' == k then some v' else lookupEnt m k

def writeAll {α : Type} (ws : List (Str × α)) (m : List (Str × α)) :
    List (Str × α) :=
  ws.foldl (fun m kv => insEnt m kv.1 kv.2) m

/-- The value of the last write with key `k` in the write sequence `ws`. -/
def lastW {α : Type} : List (Str × α) → Str → Option α
  | [], _ => none
  | (k', v) :: ws, k =>
    match lastW ws k with
    | some u => some u
    | none => if k' == k then some v else none

/-! ### Regular-expression scanners -/

/-- Models `(?i)^CREATE TABLE` on one line. -/
def startsCreateTable (l : Str) : Bool := isPfx (sl "create table") (lower l)

def wsParenOk (cs : Str) : Bool := (cs.dropWhile isWs).head? == some '('

/-- The `([a-zA-Z0-9_]+)"?\s*\(` tail of the table-name pattern; the
alternative that leaves `"?` empty when a quote is present cannot succeed
(`\s*` cannot consume `"`), so only the quote-consuming branch is tried. -/
def tryName (cs : Str) : Option Str :=
  let g2 := cs.takeWhile isWordChar
  if g2 == [] then none
  else
    let rest := cs.drop g2.length
    let ok := match rest.head? with
      | some '"' => wsParenOk (rest.drop 1)
      | _ => wsParenOk rest
    if ok then some g2 else none

/-- The `"?(?:([a-zA-Z0-9_]+)\.)?` middle of the table-name pattern followed
by `tryName`; returns (captured schema or empty, captured name). -/
def tryGroups (cs : Str) : Option (Str × Str) :=
  let g1 := cs.takeWhile isWordChar
  let afterG1 := cs.drop g1.length
  (if !(g1 == []) && afterG1.head? == some '.' then
    (tryName (afterG1.drop 1)).map (fun nm => (g1, nm))
  else none) <|> (tryName cs).map (fun nm => (([] : Str), nm))

/-- One anchored attempt of
`(?i)CREATE TABLE\s+"?(?:([a-zA-Z0-9_]+)\.)?([a-zA-Z0-9_]+)"?\s*\(`. -/
def tableNameAt (cs : Str) : Option (Str × Str) :=
  if isPfx (sl "create table") (lower cs) then
    let s1 := cs.drop 12
    let ws := s1.takeWhile isWs
    if ws == [] then none
    else
      let s2 := s1.drop ws.length
      let q := s2.head? == some '"'
      tryGroups (if q then s2.drop 1 else s2) <|>
        (if q then tryGroups s2 else none)
  else none

/-- Leftmost match of the table-name pattern over the whole line
(`FindStringSubmatch`). -/
def findTableName : Str → Option (Str × Str)
  | [] => none
  | c :: rest => tableNameAt (c :: rest) <|> findTableName rest

/-- The (schema, name) pair `parseTables` stores for a `CREATE TABLE`
opening line: the two capture groups, the schema defaulting to `public`
when the first group did not participate in the match. -/
def extractTableName (l : Str) : Option (Str × Str) :=
  (findTableName l).map (fun p => (if p.1 == [] then sl "public" else p.1, p.2))

def isClassChar (c : Char) : Bool :=
  isWordChar c || c == '(' || c == ')' || c == ',' || isWs c

/-- One anchored attempt of `(?i)\s*([a-zA-Z0-9_]+)\s+[a-zA-Z0-9_\(\),\s]+`;
returns the first capture group.  When the character after the second
whitespace run is outside the class, backtracking hands one whitespace
character to the class, which needs that run to have length at least 2. -/
def colNameAt (cs : Str) : Option Str :=
  let a := cs.takeWhile isWs
  let s1 := cs.drop a.length
  let w := s1.takeWhile isWordChar
  if w == [] then none
  else
    let s2 := s1.drop w.length
    let b := s2.takeWhile isWs
    if b == [] then none
    else
      let s3 := s2.drop b.length
      if (match s3.head? with
          | some c => isClassChar c
          | none => false) || 2 ≤ b.length then some w
      else none

def colName : Str → Option Str
  | [] => none
  | c :: rest => colNameAt (c :: rest) <|> colName rest

/-- The `(?:DEFAULT\s+[^:]+::)` alternative of the enum-usage pattern,
case-insensitively, anchored after its leading whitespace. -/
def tryDefaultAlt (cs : Str) : Option Str :=
  if isPfx (sl "default") (lower cs) then
    let s1 := cs.drop 7
    let b2 := s1.takeWhile isWs
    if b2 == [] then none
    else
      let s2 := s1.drop b2.length
      let nc := s2.takeWhile (fun c => !(c == ':'))
      if nc == [] then none
      else
        if isPfx (sl "::") (s2.drop nc.length) then
          some (cs.take 7 ++ b2 ++ nc ++ sl "::")
        else none
  else none

/-- The `(?:NOT\s+NULL)` alternative, case-insensitively. -/
def tryNotNull (cs : Str) : Option Str :=
  if isPfx (sl "not") (lower cs) then
    let s1 := cs.drop 3
    let b2 := s1.takeWhile isWs
    if b2 == [] then none
    else
      let s2 := s1.drop b2.length
      if lower (s2.take 4) == sl "null" then some (cs.take 3 ++ b2 ++ s2.take 4)
      else none
  else none

/-- The optional `(?:\s+(?:DEFAULT\s+[^:]+::|NOT\s+NULL))?` suffix; returns
the consumed characters (empty when the option does not match). -/
def enumSuffix (cs : Str) : Str :=
  let b := cs.takeWhile isWs
  if b == [] then []
  else
    let s1 := cs.drop b.length
    match tryDefaultAlt s1 with
    | some a => b ++ a
    | none =>
      match tryNotNull s1 with
      | some a => b ++ a
      | none => []

/-- One anchored attempt of
`(?i)public\.[a-zA-Z0-9_]+\b(?:\s+(?:DEFAULT\s+[^:]+::|NOT\s+NULL))?`;
returns the matched text and the remainder after it. -/
def enumCandAt (cs : Str) : Option (Str × Str) :=
  let p7 := cs.take 7
  if lower p7 == sl "public." then
    let s1 := cs.drop 7
    let w := s1.takeWhile isWordChar
    if w == [] then none
    else
      let s2 := s1.drop w.length
      let suf := enumSuffix s2
      some (p7 ++ w ++ suf, s2.drop suf.length)
  else none

/-- `FindAllString(pattern, -1)`: successive non-overlapping leftmost
matches (fuelled by the text length; every step consumes a character). -/
def enumCandsAux : Nat → Str → List Str
  | 0, _ => []
  | _, [] => []
  | f + 1, c :: rest =>
    match enumCandAt (c :: rest) with
    | some (m, after) => m :: enumCandsAux f after
    | none => enumCandsAux f rest

def enumCands (s : Str) : List Str := enumCandsAux s.length s

/-- Generic scan over the `(?m)^` anchor positions of a text: position 0 is
tried by the caller; this helper tries every position after a newline. -/
def scanLS (f : Str → Option Str) : Str → Option Str
  | [] => none
  | c :: rest =>
    if c == '\n' then
      match f rest with
      | some r => some r
      | none => scanLS f rest
    else scanLS f rest

/-- One anchored attempt of `(?m)^CREATE TABLE.*?\(` (case-sensitive; the
lazy `.*?` stops at the first `(` and `.` cannot cross the line end). -/
def ctLineAt (cs : Str) : Option Str :=
  if isPfx (sl "CREATE TABLE") cs then
    let lineRest := (cs.drop 12).takeWhile (fun c => !(c == '\n'))
    let upto := lineRest.takeWhile (fun c => !(c == '('))
    if upto.length < lineRest.length then some (sl "CREATE TABLE" ++ upto ++ ['('])
    else none
  else none

def findCTLine (sql : Str) : Option Str :=
  match ctLineAt sql with
  | some r => some r
  | none => scanLS ctLineAt sql

/-- One anchored attempt of `(?m)^\s*id\s+[^,]+` (note that `\s` and `[^,]`
both match the newline, so a match may run past the line it starts on).
When no non-comma character follows the second whitespace run,
backtracking hands its last whitespace character to `[^,]+`, which needs
that run to have length at least 2. -/
def idAt (cs : Str) : Option Str :=
  let a := cs.takeWhile isWs
  let s1 := cs.drop a.length
  if isPfx (sl "id") s1 then
    let s2 := s1.drop 2
    let b := s2.takeWhile isWs
    if b == [] then none
    else
      let s3 := s2.drop b.length
      let nc := s3.takeWhile (fun c => !(c == ','))
      if !(nc == []) then some (a ++ sl "id" ++ b ++ nc)
      else if 2 ≤ b.length then some (a ++ sl "id" ++ b)
      else none
  else none

def findIdLine (sql : Str) : Option Str :=
  match idAt sql with
  | some r => some r
  | none => scanLS idAt sql

/-- One anchored attempt of the foreign-key drop pattern
`ALTER TABLE IF EXISTS ONLY (\w+)\.(\w+) DROP CONSTRAINT IF EXISTS (fk_rails_\w+);`. -/
def dropAt (cs : Str) : Option (Str × Str × Str) :=
  if isPfx (sl "ALTER TABLE IF EXISTS ONLY ") cs then
    let s1 := cs.drop 27
    let g1 := s1.takeWhile isWordChar
    if g1 == [] then none
    else
      let s2 := s1.drop g1.length
      if s2.head? == some '.' then
        let s3 := s2.drop 1
        let g2 := s3.takeWhile isWordChar
        if g2 == [] then none
        else
          let s4 := s3.drop g2.length
          if isPfx (sl " DROP CONSTRAINT IF EXISTS fk_rails_") s4 then
            let s5 := s4.drop 36
            let g3 := s5.takeWhile isWordChar
            if g3 == [] then none
            else
              if (s5.drop g3.length).head? == some ';' then
                some (g1, g2, sl "fk_rails_" ++ g3)
              else none
          else none
      else none
  else none

def findDropMatch : Str → Option (Str × Str × Str)
  | [] => none
  | c :: rest =>
    match dropAt (c :: rest) with
    | some r => some r
    | none => findDropMatch rest

/-- One anchored attempt of `REFERENCES ([a-zA-Z0-9_]+)\.([a-zA-Z0-9_]+)`. -/
def refAt (cs : Str) : Option (Str × Str) :=
  if isPfx (sl "REFERENCES ") cs then
    let s1 := cs.drop 11
    let g1 := s1.takeWhile isWordChar
    if g1 == [] then none
    else
      let s2 := s1.drop g1.length
      if s2.head? == some '.' then
        let g2 := (s2.drop 1).takeWhile isWordChar
        if g2 == [] then none else some (g1, g2)
      else none
  else none

def findRefMatch : Str → Option (Str × Str)
  | [] => none
  | c :: rest =>
    match refAt (c :: rest) with
    | some r => some r
    | none => findRefMatch rest

/-! ### Entity extractors (`parseTables`, `parseEnums`, `parseForeignKeys`) -/

/-- The scanner's per-statement loop of `parseTables`: accumulate lines into
the current `CREATE TABLE` block, tracking parenthesis depth, and emit the
block on a line with depth at most 0 containing `);`. -/
def parseTablesAux : List Str → Option (Table × Int) → List Table → List Table
  | [], _, acc => acc.reverse
  | l :: ls, none, acc =>
    if startsCreateTable l then
      match extractTableName l with
      | some (s, n) =>
        parseTablesAux ls
          (some ({ schema := s, name := n, sql := l ++ ['\n'] }, parDelta l)) acc
      | none => parseTablesAux ls none acc
    else parseTablesAux ls none acc
  | l :: ls, some (t, d), acc =>
    let t2 : Table := { t with sql := t.sql ++ l ++ ['\n'] }
    let d2 := d + parDelta l
    if decide (d2 ≤ 0) && containsSub l (sl ");") then
      parseTablesAux ls none (t2 :: acc)
    else parseTablesAux ls (some (t2, d2)) acc

def parseTables (lines : List Str) : List Table := parseTablesAux lines none []

/-- The schema/name extraction of `parseEnums` for the opening line of a
`CREATE TYPE ... AS ENUM` statement.  When the text before the dot has no
`TYPE` substring the Go code indexes past the end of a one-element slice
and panics; that crash is modelled as skipping the statement. -/
def parseEnumStart (line : Str) : Option EnumType :=
  if containsSub line (sl "CREATE TYPE") && containsSub line (sl "AS ENUM") then
    match splitAll (takeBeforeFirst line (sl "AS ENUM")) (sl ".") with
    | [p0, p1] =>
      match (splitAll p0 (sl "TYPE")).drop 1 with
      | t1 :: _ =>
        some { schema := trimSpace t1, name := trimSpace p1, sql := line ++ ['\n'] }
      | [] => none
    | _ => none
  else none

def parseEnumsAux : List Str → Option EnumType → List EnumType → List EnumType
  | [], _, acc => acc.reverse
  | l :: ls, none, acc =>
    match parseEnumStart l with
    | some e => parseEnumsAux ls (some e) acc
    | none => parseEnumsAux ls none acc
  | l :: ls, some e, acc =>
    let e2 := { e with sql := e.sql ++ l ++ ['\n'] }
    if containsSub l (sl ");") then parseEnumsAux ls none (e2 :: acc)
    else parseEnumsAux ls (some e2) acc

def parseEnums (lines : List Str) : List EnumType := parseEnumsAux lines none []

/-- First pass of `parseForeignKeys`: constraint name to owning
`schema.table`, collected from the drop-constraint lines. -/
def fkConstraintMap (lines : List Str) : List (Str × Str) :=
  lines.foldl (fun m l =>
    match findDropMatch l with
    | some (s, t, cname) => insEnt m cname (s ++ sl "." ++ t)
    | none => m) []

/-- Second pass of `parseForeignKeys`: `ADD CONSTRAINT ... FOREIGN KEY`
lines whose constraint name resolves through the first-pass map. -/
def parseForeignKeys (lines : List Str) : List ForeignKey :=
  let cmap := fkConstraintMap lines
  lines.foldl (fun acc l =>
    if containsSub l (sl "ADD CONSTRAINT") && containsSub l (sl "FOREIGN KEY") then
      match splitAll l (sl "ADD CONSTRAINT") with
      | [_, p1] =>
        let cname := takeBeforeFirst (trimSpace p1) (sl " ")
        match lookupEnt cmap cname with
        | some ft =>
          match splitAll ft (sl ".") with
          | [fs, ftab] =>
            match findRefMatch l with
            | some (ts, tt) =>
              acc ++ [{ sql := l, fromSchema := fs, fromTable := ftab,
                        toSchema := ts, toTable := tt }]
            | none => acc
          | _ => acc
        | none => acc
      | _ => acc
    else acc) []

/-! ### Subset filter and relationship resolver -/

/-- `strings.HasPrefix(strings.ToLower(table.Name), strings.ToLower(prefix) + "_")`. -/
def pfxMatches (pfx : Str) (t : Table) : Bool :=
  isPfx (lower pfx ++ ['_']) (lower t.name)

def filterTablesByPrefix (tables : List Table) (pfx : Str) : List Table :=
  tables.filter (pfxMatches pfx)

/-- The exact-field membership test `isTableInList` of the source. -/
def isTableInList (t : Table) (l : List Table) : Bool :=
  l.any (fun u => u.schema == t.schema && u.name == t.name)

/-- The case-folding membership closure used inside `findRelevantForeignKeys`. -/
def isTableInListFold (schema nm : Str) (l : List Table) : Bool :=
  l.any (fun u => eqFold u.schema schema && eqFold u.name nm)

/-- The whitelist test `strings.EqualFold(name, whitelist)` over the list. -/
def isWhitelistedName (wl : List Str) (nm : Str) : Bool :=
  wl.any (fun w => eqFold nm w)

def keyOf (t : Table) : Str := t.schema ++ sl "." ++ t.name

/-- First pass of `findRelatedTables` (outbound references), as the
sequence of map writes it performs, in program order. -/
def pass1Writes (filteredTables allTables : List Table) : List (Str × Table) :=
  filteredTables.flatMap (fun t =>
    (splitLines t.sql).flatMap (fun l =>
      match colName l with
      | some w =>
        let cn := lower w
        if isSfx (sl "_id") cn then
          let base := trimSuffix cn (sl "_id")
          allTables.filterMap (fun u =>
            if (lower u.name == base || lower u.name == base ++ ['s']) &&
                !(isTableInList u filteredTables) then
              some (keyOf u, u)
            else none)
        else []
      | none => []))

def lookupName (m : List (Str × Table)) (k : Str) : Str :=
  match lookupEnt m k with
  | some t => t.name
  | none => []

/-- Second pass of `findRelatedTables` (inbound references) for one
filtered table's expected `<singular>_id` column name: tables already in
the filtered list, or already present in the map with a non-empty name,
are skipped before their lines are scanned. -/
def pass2Step (allTables filteredTables : List Table) (expected : Str)
    (m : List (Str × Table)) : List (Str × Table) :=
  allTables.foldl (fun m u =>
    if isTableInList u filteredTables || !(lookupName m (keyOf u) == []) then m
    else
      writeAll ((splitLines u.sql).filterMap (fun l =>
        match colName l with
        | some w => if lower w == expected then some (keyOf u, u) else none
        | none => none)) m) m

def relatedAssoc (filteredTables allTables : List Table) :
    List (Str × Table) :=
  filteredTables.foldl (fun m t =>
    pass2Step allTables filteredTables
      (lower (trimSuffix t.name (sl "s") ++ sl "_id")) m)
    (writeAll (pass1Writes filteredTables allTables) [])

/-- `findRelatedTables`, with the final map iterated in canonical
(first-insertion) order; a real run permutes this list. -/
def findRelatedTables (filteredTables allTables : List Table) : List Table :=
  (relatedAssoc filteredTables allTables).map Prod.snd

/-! ### Enum usage -/

def fullName (e : EnumType) : Str := e.schema ++ sl "." ++ e.name

/-- The clean-up applied to each candidate match in `findUsedEnums`:
case-sensitive splits at `DEFAULT` and `NOT NULL` with trimming. -/
def typeNameOf (m : Str) : Str :=
  trimSpace (takeBeforeFirst (trimSpace (takeBeforeFirst m (sl "DEFAULT")))
    (sl "NOT NULL"))

/-- The map writes one cleaned-up candidate type name causes in
`findUsedEnums`: one write per fold-equal enum, in enum-list order. -/
def enumCandWrites (allEnums : List EnumType) (tn : Str) :
    List (Str × EnumType) :=
  allEnums.filterMap (fun e =>
    if eqFold tn (fullName e) then some (fullName e, e) else none)

/-- The map writes one table causes in `findUsedEnums`: per candidate
match of the enum-usage pattern over its SQL, in match order. -/
def enumTableWrites (allEnums : List EnumType) (t : Table) :
    List (Str × EnumType) :=
  (enumCands t.sql).flatMap (fun c => enumCandWrites allEnums (typeNameOf c))

/-- The sequence of map writes performed by `findUsedEnums`, in program
order: per table, per candidate match, per fold-equal enum. -/
def enumWrites (tables : List Table) (allEnums : List EnumType) :
    List (Str × EnumType) :=
  tables.flatMap (enumTableWrites allEnums)

def usedEnumsAssoc (tables : List Table) (allEnums : List EnumType) :
    List (Str × EnumType) :=
  writeAll (enumWrites tables allEnums) []

/-- `findUsedEnums`, with the final map iterated in canonical order; a
real run permutes this list. -/
def findUsedEnums (tables : List Table) (allEnums : List EnumType) :
    List EnumType :=
  (usedEnumsAssoc tables allEnums).map Prod.snd

/-! ### Relevant foreign keys -/

/-- The inclusion condition of `findRelevantForeignKeys`: either endpoint
is in the filtered list (schema and name, case-folded) or bears a
whitelisted bare name. -/
def fkPasses (filteredTables : List Table) (wl : List Str)
    (fk : ForeignKey) : Bool :=
  isTableInListFold fk.fromSchema fk.fromTable filteredTables ||
  isTableInListFold fk.toSchema fk.toTable filteredTables ||
  isWhitelistedName wl fk.fromTable || isWhitelistedName wl fk.toTable

def relevantFKAssoc (filteredTables : List Table) (wl : List Str)
    (fks : List ForeignKey) : List (Str × ForeignKey) :=
  writeAll (fks.filterMap (fun fk =>
    if fkPasses filteredTables wl fk then some (fk.sql, fk) else none)) []

/-- `findRelevantForeignKeys`; the `relatedTables` parameter is present in
the source's signature but never read by its body. -/
def findRelevantForeignKeys (filteredTables relatedTables : List Table)
    (wl : List Str) (fks : List ForeignKey) : List ForeignKey :=
  (relevantFKAssoc filteredTables wl fks).map Prod.snd

/-! ### Output assembly (`main`) -/

/-- What `main` writes for one related table: the full SQL behind a
comment header when whitelisted, a synthesized stub when both the
`CREATE TABLE` header and an id-column match are found, nothing otherwise. -/
def emitRelatedTable (wl : List Str) (t : Table) : Str :=
  if isWhitelistedName wl t.name then
    sl "\n-- Full definition for whitelisted table\n" ++ t.sql
  else
    match findCTLine t.sql, findIdLine t.sql with
    | some h, some idl => h ++ sl "\n    " ++ idl ++ sl "\n);\n\n"
    | _, _ => []

/-- The text `main` writes to `filtered_tables.sql`, given the iteration
orders actually observed for the three map-backed collections. -/
def assembleOutput (filteredTables relatedList : List Table)
    (enumList : List EnumType) (fkList : List ForeignKey)
    (wl : List Str) : Str :=
  (if enumList.isEmpty then ([] : Str)
   else sl "-- Enum type definitions\n" ++
     (enumList.map (fun e => e.sql)).flatten ++ sl "\n") ++
  sl "-- Tables with prefix\n" ++ (filteredTables.map (fun t => t.sql)).flatten ++
  sl "\n-- Related tables\n" ++ (relatedList.map (emitRelatedTable wl)).flatten ++
  (if fkList.isEmpty then ([] : Str)
   else sl "\n-- Foreign key constraints\n" ++
     (fkList.map (fun fk => fk.sql ++ ['\n'])).flatten)

/-- The tables whose columns are checked for enum usage: all filtered
tables plus the whitelisted related tables, in the run's related order. -/
def tablesForEnumCheck (filteredTables relatedList : List Table)
    (wl : List Str) : List Table :=
  filteredTables ++ relatedList.filter (fun t => isWhitelistedName wl t.name)

/-- The iteration orders a single run observes for the three Go maps. -/
structure RunOrders where
  rl : List Table
  el : List EnumType
  fl : List ForeignKey
deriving DecidableEq

/-- A run's orders are valid when each is a permutation of the entries of
the corresponding map, the enum map being built from the run's own
related-table order. -/
def ValidRun (input : List Str) (pfx : Str) (wl : List Str)
    (o : RunOrders) : Prop :=
  let tables := parseTables input
  let filtered := filterTablesByPrefix tables pfx
  o.rl.Perm (findRelatedTables filtered tables) ∧
  o.el.Perm (findUsedEnums (tablesForEnumCheck filtered o.rl wl)
    (parseEnums input)) ∧
  o.fl.Perm (findRelevantForeignKeys filtered o.rl wl (parseForeignKeys input))

/-- The bytes a run writes to `filtered_tables.sql`. -/
def runOutput (input : List Str) (pfx : Str) (wl : List Str)
    (o : RunOrders) : Str :=
  assembleOutput (filterTablesByPrefix (parseTables input) pfx)
    o.rl o.el o.fl wl

/-! ### Specification-side helpers used only in theorem statements -/

def noDot (s : Str) : Bool := s.all (fun c => !(c == '.'))

/-- Index (counting from the line after the opening line) of the first
line on which the scanner's running parenthesis depth is at most 0 and
which contains `);`, starting from depth `d`. -/
def closeIdx (d : Int) : List Str → Option Nat
  | [] => none
  | l :: ls =>
    let d2 := d + parDelta l
    if decide (d2 ≤ 0) && containsSub l (sl ");") then some 0
    else (closeIdx d2 ls).map (· + 1)

/-- The in-progress table extended by further consumed lines. -/
def extendTable (t : Table) (ls : List Str) : Table :=
  { t with sql := t.sql ++ (ls.map (fun l => l ++ ['\n'])).flatten }

/-- Keys of an association list are pairwise distinct. -/
def NodupKeys {α : Type} (m : List (Str × α)) : Prop :=
  (m.map Prod.fst).Nodup

/-- A small concrete schema used by several checks: one prefix-matched
table whose `u_id` and `p_id` columns reference the tables `us` and `ps`
by the naming convention. -/
def demoInput : List Str :=
  [sl "CREATE TABLE a_b (", sl "u_id x y", sl "p_id x y", sl ");",
   sl "CREATE TABLE us (", sl "id t", sl ");",
   sl "CREATE TABLE ps (", sl "id t", sl ");"]

/-- The canonical-order run on `demoInput` with prefix `a`. -/
def demoRunA : RunOrders :=
  { rl := findRelatedTables (filterTablesByPrefix (parseTables demoInput) (sl "a"))
      (parseTables demoInput),
    el := [], fl := [] }

/-- The run on `demoInput` whose related-table map was iterated in the
opposite order. -/
def demoRunB : RunOrders :=
  { rl := (findRelatedTables (filterTablesByPrefix (parseTables demoInput) (sl "a"))
      (parseTables demoInput)).reverse,
    el := [], fl := [] }

/-- A schema exercising the inbound direction of relationship inference:
`zz` references the prefix-matched table `b_cs` through its `b_c_id`
column. -/
def demoInput2 : List Str :=
  [sl "CREATE TABLE b_cs (", sl "w t", sl ");",
   sl "CREATE TABLE zz (", sl "b_c_id x y", sl ");"]

/-- A prefix-matched table (prefix `it`) living in schema `public`. -/
def c3Table : Table :=
  { name := sl "it_items", schema := sl "public", sql := sl "x" }

/-- A foreign key whose from-endpoint has the bare name of `c3Table` but a
different schema. -/
def c3FK : ForeignKey :=
  { sql := sl "F", fromSchema := sl "other", fromTable := sl "it_items",
    toSchema := sl "x", toTable := sl "y" }

/-- The table `us` of `demoInput`, as `parseTables` captures it. -/
def usTable : Table :=
  { name := sl "us", schema := sl "public", sql := sl "CREATE TABLE us (\nid t\n);\n" }

/-- A related table without any recognizable id column line. -/
def noIdTable : Table :=
  { name := sl "zs", schema := sl "public", sql := sl "CREATE TABLE zs (\nw t\n);\n" }

/-- A foreign key whose endpoints match no table, with a whitelisted
from-name. -/
def c9FK : ForeignKey :=
  { sql := sl "G", fromSchema := sl "public", fromTable := sl "qq",
    toSchema := sl "aa", toTable := sl "bb" }

/-- An input declaring one enum type in schema `public`. -/
def demoEnumInput : List Str :=
  [sl "CREATE TYPE public.st AS ENUM (", sl "    'a'", sl ");"]

/-- A table with a column typed by the enum of `demoEnumInput`. -/
def demoEnumTable : Table :=
  { name := sl "a_b", schema := sl "public",
    sql := sl "CREATE TABLE a_b (\n    s public.st NOT NULL\n);\n" }

/-- The last enum in the list whose exact `schema.name` string is `k`;
this is the value every write with key `k` resolves to in the end. -/
def lastEnum (allEnums : List EnumType) (k : Str) : Option EnumType :=
  lastW (allEnums.map (fun e => (fullName e, e))) k

/-- A table set touches the enum key `k` when some candidate match of one
of its tables cleans up to a type name fold-equal to `k`. -/
def touchesEnumKey (tables : List Table) (k : Str) : Bool :=
  tables.any (fun t => (enumCands t.sql).any (fun c => eqFold (typeNameOf c) k))



theorem lookupEnt_nil {α : Type} (j : Str) : lookupEnt ([] : List (Str × α)) j = none := rfl

theorem lookupEnt_cons {α : Type} (k : Str) (v : α) (m : List (Str × α)) (j : Str) :
    lookupEnt ((k, v) :: m) j = if k = j then some v else lookupEnt m j := by
  simp only [lookupEnt, beq_iff_eq]

theorem insEnt_cons_eq {α : Type} (k : Str) (v' v : α) (m : List (Str × α)) :
    insEnt ((k, v') :: m) k v = (k, v) :: m := by
  simp [insEnt]

theorem lookupEnt_insEnt {α : Type} (m : List (Str × α)) (k j : Str) (v : α) :
    lookupEnt (insEnt m k v) j = if k = j then some v else lookupEnt m j := by
  induction m with
  | nil => simp [insEnt, lookupEnt_cons, lookupEnt_nil]
  | cons p m ih =>
    obtain ⟨k', v'⟩ := p
    simp only [insEnt, beq_iff_eq]
    by_cases h1 : k' = k
    · subst h1
      rw [if_pos rfl, lookupEnt_cons, lookupEnt_cons]
      by_cases h2 : k' = j
      · simp [h2]
      · simp [h2]
    · rw [if_neg h1, lookupEnt_cons, lookupEnt_cons, ih]
      by_cases h2 : k' = j
      · subst h2
        have hne : ¬k = k' := fun h => h1 h.symm
        simp [hne]
      · simp [h2]

theorem lookupEnt_eq_some_mem {α : Type} (m : List (Str × α)) (k : Str) (v : α)
    (h : lookupEnt m k = some v) : (k, v) ∈ m := by
  induction m with
  | nil => simp [lookupEnt] at h
  | cons p m ih =>
    obtain ⟨k', v'⟩ := p
    rw [lookupEnt_cons] at h
    by_cases h1 : k' = k
    · rw [if_pos h1] at h
      subst h1
      obtain rfl : v' = v := by injection h
      exact List.mem_cons_self ..
    · rw [if_neg h1] at h
      exact List.mem_cons_of_mem _ (ih h)

theorem lookupEnt_isSome_of_mem_key {α : Type} (m : List (Str × α)) (k : Str)
    (v : α) (h : (k, v) ∈ m) : (lookupEnt m k).isSome = true := by
  induction m with
  | nil => simp at h
  | cons p m ih =>
    obtain ⟨k', v'⟩ := p
    rw [lookupEnt_cons]
    by_cases h1 : k' = k
    · rw [if_pos h1]; rfl
    · rw [if_neg h1]
      rcases List.mem_cons.mp h with hh | hh
      · exact absurd (congrArg Prod.fst hh).symm h1
      · exact ih hh

theorem mem_insEnt {α : Type} (m : List (Str × α)) (k : Str) (v : α)
    (p : Str × α) (h : p ∈ insEnt m k v) : p = (k, v) ∨ p ∈ m := by
  induction m with
  | nil =>
    simp only [insEnt] at h
    exact Or.inl (List.mem_singleton.mp h)
  | cons q m ih =>
    obtain ⟨k', v'⟩ := q
    simp only [insEnt, beq_iff_eq] at h
    by_cases h1 : k' = k
    · rw [if_pos h1] at h
      rcases List.mem_cons.mp h with rfl | hh
      · exact Or.inl rfl
      · exact Or.inr (List.mem_cons_of_mem _ hh)
    · rw [if_neg h1] at h
      rcases List.mem_cons.mp h with rfl | hh
      · exact Or.inr (List.mem_cons_self ..)
      · rcases ih hh with hh | hh
        · exact Or.inl hh
        · exact Or.inr (List.mem_cons_of_mem _ hh)

theorem mem_writeAll {α : Type} (ws m : List (Str × α)) (p : Str × α)
    (h : p ∈ writeAll ws m) : p ∈ ws ∨ p ∈ m := by
  induction ws generalizing m with
  | nil => exact Or.inr h
  | cons w ws ih =>
    obtain ⟨k, v⟩ := w
    simp only [writeAll, List.foldl_cons] at h
    rcases ih _ h with hh | hh
    · exact Or.inl (List.mem_cons_of_mem _ hh)
    · rcases mem_insEnt _ _ _ _ hh with rfl | hh
      · exact Or.inl (List.mem_cons_self ..)
      · exact Or.inr hh

theorem lookupEnt_writeAll {α : Type} (ws m : List (Str × α)) (k : Str) :
    lookupEnt (writeAll ws m) k =
      ((lastW ws k).rec (lookupEnt m k) (fun v => some v) : Option α) := by
  induction ws generalizing m with
  | nil => simp [writeAll, lastW]
  | cons w ws ih =>
    obtain ⟨k', v⟩ := w
    simp only [writeAll, List.foldl_cons] at *
    rw [ih]
    simp only [lastW]
    rcases hl : lastW ws k with _ | u
    · simp only []
      rw [lookupEnt_insEnt]
      by_cases h : k' = k
      · simp [h]
      · simp [h, fun hh : k = k' => h (hh.symm)]
    · simp

theorem lookupEnt_writeAll_some {α : Type} (ws m : List (Str × α)) (k : Str)
    (v : α) (h : lastW ws k = some v) : lookupEnt (writeAll ws m) k = some v := by
  rw [lookupEnt_writeAll, h]

theorem lookupEnt_writeAll_none {α : Type} (ws m : List (Str × α)) (k : Str)
    (h : lastW ws k = none) : lookupEnt (writeAll ws m) k = lookupEnt m k := by
  rw [lookupEnt_writeAll, h]

theorem lastW_isSome_of_mem {α : Type} (ws : List (Str × α)) (k : Str) (v : α)
    (h : (k, v) ∈ ws) : (lastW ws k).isSome = true := by
  induction ws with
  | nil => simp at h
  | cons w ws ih =>
    obtain ⟨k', v'⟩ := w
    simp only [lastW]
    rcases hl : lastW ws k with _ | u
    · rcases List.mem_cons.mp h with hh | hh
      · injection hh with e1 e2
        subst e1
        simp
      · have hs := ih hh
        rw [hl] at hs
        simp at hs
    · rfl

theorem lastW_mem {α : Type} (ws : List (Str × α)) (k : Str) (v : α)
    (h : lastW ws k = some v) : (k, v) ∈ ws := by
  induction ws with
  | nil => simp [lastW] at h
  | cons w ws ih =>
    obtain ⟨k', v'⟩ := w
    simp only [lastW] at h
    rcases hl : lastW ws k with _ | u
    · rw [hl] at h
      simp only [beq_iff_eq] at h
      by_cases h1 : k' = k
      · rw [if_pos h1] at h
        obtain rfl := h1
        obtain rfl : v' = v := by injection h
        exact List.mem_cons_self ..
      · rw [if_neg h1] at h
        simp at h
    · rw [hl] at h
      obtain rfl : u = v := by injection h
      exact List.mem_cons_of_mem _ (ih hl)

theorem lookupEnt_writeAll_isSome {α : Type} (ws m : List (Str × α)) (k : Str)
    (v : α) (h : (k, v) ∈ ws) : (lookupEnt (writeAll ws m) k).isSome = true := by
  rcases hl : lastW ws k with _ | u
  · have hs := lastW_isSome_of_mem ws k v h
    rw [hl] at hs
    simp at hs
  · rw [lookupEnt_writeAll_some ws m k u hl]
    rfl

theorem nodupKeys_insEnt {α : Type} (m : List (Str × α)) (k : Str) (v : α)
    (h : NodupKeys m) : NodupKeys (insEnt m k v) := by
  induction m with
  | nil =>
    show (([(k, v)]).map Prod.fst).Nodup
    simp
  | cons p m ih =>
    obtain ⟨k', v'⟩ := p
    simp only [NodupKeys, List.map_cons, List.nodup_cons] at h
    simp only [insEnt, beq_iff_eq]
    by_cases h1 : k' = k
    · rw [if_pos h1]
      show (((k, v) :: m).map Prod.fst).Nodup
      simp only [List.map_cons, List.nodup_cons]
      exact ⟨h1 ▸ h.1, h.2⟩
    · rw [if_neg h1]
      simp only [NodupKeys, List.map_cons, List.nodup_cons]
      constructor
      · intro hmem
        -- k' is a key of insEnt m k v, so it is k or a key of m
        have : ∀ p ∈ insEnt m k v, p.1 = k ∨ p.1 ∈ m.map Prod.fst := by
          intro p hp
          rcases mem_insEnt _ _ _ _ hp with rfl | hp
          · exact Or.inl rfl
          · exact Or.inr (List.mem_map_of_mem _ hp)
        rcases List.mem_map.mp hmem with ⟨p, hp, hfst⟩
        rcases this p hp with hh | hh
        · exact h1 (hfst ▸ hh)
        · exact h.1 (hfst ▸ hh)
      · exact ih h.2

theorem nodupKeys_writeAll {α : Type} (ws m : List (Str × α))
    (h : NodupKeys m) : NodupKeys (writeAll ws m) := by
  induction ws generalizing m with
  | nil => exact h
  | cons w ws ih =>
    simp only [writeAll, List.foldl_cons]
    exact ih _ (nodupKeys_insEnt _ _ _ h)

theorem nodup_of_nodupKeys {α : Type} (m : List (Str × α)) (h : NodupKeys m) :
    m.Nodup :=
  h.of_map _

theorem lookupEnt_eq_some_of_mem_nodup {α : Type} (m : List (Str × α))
    (k : Str) (v : α) (hnd : NodupKeys m) (h : (k, v) ∈ m) :
    lookupEnt m k = some v := by
  induction m with
  | nil => simp at h
  | cons p m ih =>
    obtain ⟨k', v'⟩ := p
    simp only [NodupKeys, List.map_cons, List.nodup_cons] at hnd
    rw [lookupEnt_cons]
    rcases List.mem_cons.mp h with hh | hh
    · obtain ⟨h1, h2⟩ := Prod.mk.injEq .. ▸ hh.symm
      rw [if_pos h1, h2]
    · by_cases h1 : k' = k
      · subst h1
        exact absurd (List.mem_map_of_mem Prod.fst hh) hnd.1
      · rw [if_neg h1]
        exact ih hnd.2 hh

/-- Two association lists with distinct keys and the same lookup function
hold the same entries, up to permutation. -/
theorem perm_of_lookupEnt_ext {α : Type} (m1 m2 : List (Str × α))
    (h1 : NodupKeys m1) (h2 : NodupKeys m2)
    (h : ∀ k, lookupEnt m1 k = lookupEnt m2 k) : m1.Perm m2 := by
  rw [List.perm_ext_iff_of_nodup (nodup_of_nodupKeys _ h1) (nodup_of_nodupKeys _ h2)]
  rintro ⟨k, v⟩
  constructor
  · intro hm
    exact lookupEnt_eq_some_mem _ _ _ ((h k) ▸ lookupEnt_eq_some_of_mem_nodup _ _ _ h1 hm)
  · intro hm
    exact lookupEnt_eq_some_mem _ _ _ ((h k).symm ▸ lookupEnt_eq_some_of_mem_nodup _ _ _ h2 hm)


/-! ## Order-independence of the enum-usage map content -/

theorem lastW_cons {α : Type} (k' : Str) (v : α) (ws : List (Str × α)) (k : Str) :
    lastW ((k', v) :: ws) k =
      match lastW ws k with
      | some u => some u
      | none => if k' = k then some v else none := by
  simp only [lastW, beq_iff_eq]

theorem lastW_append {α : Type} (a b : List (Str × α)) (k : Str) :
    lastW (a ++ b) k =
      match lastW b k with
      | some u => some u
      | none => lastW a k := by
  induction a with
  | nil =>
    simp only [List.nil_append, lastW]
    rcases lastW b k with _ | u <;> rfl
  | cons w a ih =>
    obtain ⟨k', v⟩ := w
    rw [List.cons_append, lastW_cons, lastW_cons, ih]
    rcases hb : lastW b k with _ | u
    · rfl
    · rfl

theorem any_of_perm {α : Type} {l1 l2 : List α} (h : l1.Perm l2)
    (p : α → Bool) : l1.any p = l2.any p := by
  rcases hb : l2.any p with _ | _
  · rw [List.any_eq_false] at hb ⊢
    intro a ha
    exact hb a (h.mem_iff.mp ha)
  · rw [List.any_eq_true] at hb ⊢
    rcases hb with ⟨a, ha, hp⟩
    exact ⟨a, h.mem_iff.mpr ha, hp⟩

theorem enumCandWrites_cons (e : EnumType) (es : List EnumType) (tn : Str) :
    enumCandWrites (e :: es) tn =
      (if eqFold tn (fullName e) then [(fullName e, e)] else []) ++
        enumCandWrites es tn := by
  simp only [enumCandWrites, List.filterMap_cons]
  by_cases hq : eqFold tn (fullName e) <;> simp [hq]

theorem lastEnum_cons (e : EnumType) (es : List EnumType) (k : Str) :
    lastEnum (e :: es) k =
      match lastEnum es k with
      | some u => some u
      | none => if fullName e = k then some e else none := by
  unfold lastEnum
  rw [List.map_cons, lastW_cons]
  rcases lastW (List.map (fun e => (fullName e, e)) es) k with _ | u
  · by_cases hf : fullName e = k <;> simp [hf]
  · rfl

theorem lastW_enumCandWrites (allEnums : List EnumType) (tn k : Str) :
    lastW (enumCandWrites allEnums tn) k =
      if eqFold tn k then lastEnum allEnums k else none := by
  induction allEnums with
  | nil =>
    simp only [enumCandWrites, List.filterMap_nil, lastW, lastEnum, List.map_nil]
    rcases eqFold tn k with _ | _ <;> rfl
  | cons e es ih =>
    rw [enumCandWrites_cons, lastEnum_cons]
    by_cases hq : eqFold tn (fullName e) = true
    · rw [if_pos hq, List.singleton_append, lastW_cons, ih]
      by_cases hf : fullName e = k
      · subst hf
        rw [if_pos rfl]
        rcases lastEnum es (fullName e) with _ | u <;> simp [hq]
      · rw [if_neg hf]
        -- eqFold tn k may or may not hold
        by_cases hk : eqFold tn k = true
        · rcases lastEnum es k with _ | u <;> simp [hk, hf]
        · rw [Bool.not_eq_true] at hk
          rcases lastEnum es k with _ | u <;> simp [hk, hf]
    · rw [Bool.not_eq_true] at hq
      rw [hq]
      simp only [if_false, Bool.false_eq_true, List.nil_append, ih]
      by_cases hk : eqFold tn k = true
      · have hf : ¬fullName e = k := by
          intro hf
          rw [hf] at hq
          rw [hq] at hk
          exact Bool.false_ne_true hk
        rcases lastEnum es k with _ | u <;> simp [hk, hf]
      · rw [Bool.not_eq_true] at hk
        rcases lastEnum es k with _ | u <;> simp [hk]

theorem lastW_candList (allEnums : List EnumType) (cs : List Str) (k : Str) :
    lastW (cs.flatMap (fun c => enumCandWrites allEnums (typeNameOf c))) k =
      if cs.any (fun c => eqFold (typeNameOf c) k) then lastEnum allEnums k
      else none := by
  induction cs with
  | nil => simp [lastW]
  | cons c cs ih =>
    rw [List.flatMap_cons, lastW_append, ih, lastW_enumCandWrites]
    by_cases hc : eqFold (typeNameOf c) k = true
    · by_cases ha : cs.any (fun c => eqFold (typeNameOf c) k) = true
      · rcases lastEnum allEnums k with _ | u <;> simp [hc, ha]
      · rw [Bool.not_eq_true] at ha
        rcases lastEnum allEnums k with _ | u <;> simp [hc, ha]
    · rw [Bool.not_eq_true] at hc
      by_cases ha : cs.any (fun c => eqFold (typeNameOf c) k) = true
      · rcases lastEnum allEnums k with _ | u <;> simp [hc, ha]
      · rw [Bool.not_eq_true] at ha
        rcases lastEnum allEnums k with _ | u <;> simp [hc, ha]

theorem lastW_enumWrites (tables : List Table) (allEnums : List EnumType)
    (k : Str) :
    lastW (enumWrites tables allEnums) k =
      if touchesEnumKey tables k then lastEnum allEnums k else none := by
  induction tables with
  | nil => simp [enumWrites, lastW, touchesEnumKey]
  | cons t ts ih =>
    unfold enumWrites at *
    rw [List.flatMap_cons, lastW_append, ih]
    unfold touchesEnumKey at *
    rw [List.any_cons]
    have ht : lastW (enumTableWrites allEnums t) k =
        if (enumCands t.sql).any (fun c => eqFold (typeNameOf c) k) then
          lastEnum allEnums k else none := lastW_candList allEnums _ k
    rw [ht]
    by_cases hc : (enumCands t.sql).any (fun c => eqFold (typeNameOf c) k) = true
    · by_cases ha : ts.any (fun t => (enumCands t.sql).any fun c => eqFold (typeNameOf c) k) = true
      · rcases lastEnum allEnums k with _ | u <;> simp [hc, ha]
      · rw [Bool.not_eq_true] at ha
        rcases lastEnum allEnums k with _ | u <;> simp [hc, ha]
    · rw [Bool.not_eq_true] at hc
      by_cases ha : ts.any (fun t => (enumCands t.sql).any fun c => eqFold (typeNameOf c) k) = true
      · rcases lastEnum allEnums k with _ | u <;> simp [hc, ha]
      · rw [Bool.not_eq_true] at ha
        rcases lastEnum allEnums k with _ | u <;> simp [hc, ha]

theorem usedEnumsAssoc_lookup_of_perm (ts1 ts2 : List Table)
    (es : List EnumType) (h : ts1.Perm ts2) (k : Str) :
    lookupEnt (usedEnumsAssoc ts1 es) k = lookupEnt (usedEnumsAssoc ts2 es) k := by
  unfold usedEnumsAssoc
  rw [lookupEnt_writeAll, lookupEnt_writeAll, lastW_enumWrites, lastW_enumWrites]
  unfold touchesEnumKey
  rw [any_of_perm h]

theorem nodupKeys_usedEnumsAssoc (ts : List Table) (es : List EnumType) :
    NodupKeys (usedEnumsAssoc ts es) := by
  apply nodupKeys_writeAll
  show (([] : List (Str × EnumType)).map Prod.fst).Nodup
  simp

theorem findUsedEnums_perm_of_perm (ts1 ts2 : List Table) (es : List EnumType)
    (h : ts1.Perm ts2) :
    (findUsedEnums ts1 es).Perm (findUsedEnums ts2 es) := by
  unfold findUsedEnums
  apply List.Perm.map
  apply perm_of_lookupEnt_ext _ _ (nodupKeys_usedEnumsAssoc ts1 es)
    (nodupKeys_usedEnumsAssoc ts2 es)
  intro k
  exact usedEnumsAssoc_lookup_of_perm ts1 ts2 es h k

/-- C10: for one input and identical arguments, any two runs (differing only
in the iteration order of the Go maps) compute the same sets, up to order,
of related tables, used enums and relevant foreign keys; the prefix-matched
table list is a plain deterministic function and is identical by definition. -/
theorem c10_section_sets_deterministic
    (input : List Str) (pfx : Str) (wl : List Str) (o1 o2 : RunOrders)
    (h1 : ValidRun input pfx wl o1) (h2 : ValidRun input pfx wl o2) :
    o1.rl.Perm o2.rl ∧ o1.el.Perm o2.el ∧ o1.fl.Perm o2.fl := by
  obtain ⟨hr1, he1, hf1⟩ := h1
  obtain ⟨hr2, he2, hf2⟩ := h2
  have hrr : o1.rl.Perm o2.rl := hr1.trans hr2.symm
  refine ⟨hrr, ?_, ?_⟩
  · apply he1.trans
    apply List.Perm.trans ?_ he2.symm
    apply findUsedEnums_perm_of_perm
    unfold tablesForEnumCheck
    exact (hrr.filter _).append_left _
  · apply hf1.trans
    have he : findRelevantForeignKeys
        (filterTablesByPrefix (parseTables input) pfx) o1.rl wl
        (parseForeignKeys input) =
      findRelevantForeignKeys
        (filterTablesByPrefix (parseTables input) pfx) o2.rl wl
        (parseForeignKeys input) := rfl
    rw [he]
    exact hf2.symm

theorem c10_section_sets_witness :
    (ValidRun demoInput (sl "a") [] demoRunA ∧ ValidRun demoInput (sl "a") [] demoRunB) ∧
      (demoRunA.rl.Perm demoRunB.rl ∧ demoRunA.el.Perm demoRunB.el ∧
        demoRunA.fl.Perm demoRunB.fl) := by
  have hva : ValidRun demoInput (sl "a") [] demoRunA := by
    refine ⟨?_, ?_, ?_⟩ <;> decide
  have hvb : ValidRun demoInput (sl "a") [] demoRunB := by
    refine ⟨?_, ?_, ?_⟩ <;> decide
  exact ⟨⟨hva, hvb⟩, c10_section_sets_deterministic demoInput (sl "a") [] demoRunA demoRunB hva hvb⟩

/-- C1: the output file is NOT byte-identical across runs.  On `demoInput`
with prefix `a`, two valid runs, differing only in the iteration order of
the related-table map, write different bytes to `filtered_tables.sql`:
the claimed idempotence fails on the code as written. -/
theorem c1_output_not_byte_identical :
    ValidRun demoInput (sl "a") [] demoRunA ∧ ValidRun demoInput (sl "a") [] demoRunB ∧
      ¬ runOutput demoInput (sl "a") [] demoRunA = runOutput demoInput (sl "a") [] demoRunB := by
  refine ⟨⟨?_, ?_, ?_⟩, ⟨?_, ?_, ?_⟩, ?_⟩ <;> decide

/-- C6: a table is prefix-matched exactly when its lowercase name starts
with the lowercase prefix followed by an underscore; `pre_foo` matches
prefix `pre` while `prefixed_foo` does not. -/
theorem c6_prefix_exact_delimiter :
    (∀ (tables : List Table) (pfx : Str) (t : Table),
      t ∈ filterTablesByPrefix tables pfx ↔
        t ∈ tables ∧ isPfx (lower pfx ++ ['_']) (lower t.name) = true) ∧
    pfxMatches (sl "pre") { name := sl "pre_foo", schema := sl "public", sql := [] } = true ∧
    pfxMatches (sl "pre") { name := sl "prefixed_foo", schema := sl "public", sql := [] } = false := by
  refine ⟨?_, by decide, by decide⟩
  intro tables pfx t
  unfold filterTablesByPrefix pfxMatches
  exact List.mem_filter

/-- C3 counterexample: a foreign key whose from-endpoint has the bare name
of a prefix-matched table but a different schema is NOT included, although
the claim, which matches the prefix-matched set by bare name, says it is. -/
theorem c3_bare_name_not_sufficient :
    c3Table ∈ filterTablesByPrefix [c3Table] (sl "it") ∧
    eqFold c3FK.fromTable c3Table.name = true ∧
    findRelevantForeignKeys (filterTablesByPrefix [c3Table] (sl "it")) [] []
      [c3FK] = [] := by
  refine ⟨by decide, by decide, by decide⟩

theorem mem_map_snd {α : Type} (m : List (Str × α)) (p : Str × α)
    (h : p ∈ m) : p.2 ∈ m.map Prod.snd :=
  List.mem_map_of_mem Prod.snd h

/-- C3 as amended: a known constraint is included exactly when one of its
endpoints matches a prefix-matched table by schema AND bare name
(case-insensitively), or carries a whitelisted bare name; the related-table
argument is irrelevant (it does not occur in the condition). -/
theorem c3_fk_inclusion_characterization (filtered rel : List Table) (wl : List Str)
    (fks : List ForeignKey) (fk : ForeignKey)
    (hinj : ∀ a ∈ fks, ∀ b ∈ fks, a.sql = b.sql → a = b) :
    fk ∈ findRelevantForeignKeys filtered rel wl fks ↔
      fk ∈ fks ∧
        (isTableInListFold fk.fromSchema fk.fromTable filtered = true ∨
         isTableInListFold fk.toSchema fk.toTable filtered = true ∨
         isWhitelistedName wl fk.fromTable = true ∨
         isWhitelistedName wl fk.toTable = true) := by
  unfold findRelevantForeignKeys relevantFKAssoc
  constructor
  · intro hm
    rcases List.mem_map.mp hm with ⟨⟨k, v⟩, hkv, hv⟩
    rcases mem_writeAll _ _ _ hkv with hw | hw
    · rcases List.mem_filterMap.mp hw with ⟨a, ha, hfa⟩
      by_cases hp : fkPasses filtered wl a = true
      · rw [if_pos hp] at hfa
        injection hfa with e1
        injection e1 with e2 e3
        obtain rfl : a = fk := by rw [← hv]; exact e3
        refine ⟨ha, ?_⟩
        unfold fkPasses at hp
        simpa [Bool.or_eq_true, or_assoc] using hp
      · rw [Bool.not_eq_true] at hp
        rw [if_neg (by simp [hp])] at hfa
        exact absurd hfa (by simp)
    · simp at hw
  · rintro ⟨hmem, hcond⟩
    have hp : fkPasses filtered wl fk = true := by
      unfold fkPasses
      simpa [Bool.or_eq_true, or_assoc] using hcond
    have hws : (fk.sql, fk) ∈ fks.filterMap (fun fk =>
        if fkPasses filtered wl fk = true then some (fk.sql, fk) else none) := by
      apply List.mem_filterMap.mpr
      exact ⟨fk, hmem, by rw [if_pos hp]⟩
    have hsome := lookupEnt_writeAll_isSome _ ([] : List (Str × ForeignKey)) _ _ hws
    rcases hl : lookupEnt (writeAll (fks.filterMap (fun fk =>
        if fkPasses filtered wl fk = true then some (fk.sql, fk) else none)) []) fk.sql with _ | v
    · rw [hl] at hsome; simp at hsome
    · -- v comes from a write with key fk.sql
      have hvm := lookupEnt_eq_some_mem _ _ _ hl
      rcases mem_writeAll _ _ _ hvm with hw | hw
      · rcases List.mem_filterMap.mp hw with ⟨a, ha, hfa⟩
        by_cases hpa : fkPasses filtered wl a = true
        · rw [if_pos hpa] at hfa
          injection hfa with e1
          injection e1 with e2 e3
          have hva : a = fk := hinj a ha fk hmem e2
          rw [← e3, hva] at hl
          exact mem_map_snd _ _ (lookupEnt_eq_some_mem _ _ _ hl)
        · rw [Bool.not_eq_true] at hpa
          rw [if_neg (by simp [hpa])] at hfa
          exact absurd hfa (by simp)
      · simp at hw

/-- C7: a whitelisted related table is emitted verbatim behind a comment
header; a non-whitelisted one with a header and id-column match becomes the
synthesized stub; with no id-column match nothing is emitted. -/
theorem c7_related_table_emission (wl : List Str) (t : Table) :
    (isWhitelistedName wl t.name = true →
      emitRelatedTable wl t =
        sl "\n-- Full definition for whitelisted table\n" ++ t.sql) ∧
    (isWhitelistedName wl t.name = false → findIdLine t.sql = none →
      emitRelatedTable wl t = []) ∧
    (∀ h idl, isWhitelistedName wl t.name = false → findCTLine t.sql = some h →
      findIdLine t.sql = some idl →
      emitRelatedTable wl t = h ++ sl "\n    " ++ idl ++ sl "\n);\n\n") := by
  refine ⟨?_, ?_, ?_⟩
  · intro hw
    unfold emitRelatedTable
    rw [if_pos hw]
  · intro hw hid
    unfold emitRelatedTable
    rw [if_neg (by simp [hw]), hid]
    rcases findCTLine t.sql with _ | h <;> rfl
  · intro h idl hw hct hid
    unfold emitRelatedTable
    rw [if_neg (by simp [hw]), hct, hid]

theorem c7_related_table_emission_witness :
    (isWhitelistedName [sl "US"] usTable.name = true ∧
      emitRelatedTable [sl "US"] usTable =
        sl "\n-- Full definition for whitelisted table\n" ++ usTable.sql) ∧
    (isWhitelistedName [] noIdTable.name = false ∧ findIdLine noIdTable.sql = none ∧
      emitRelatedTable [] noIdTable = []) ∧
    (isWhitelistedName [] usTable.name = false ∧
      findCTLine usTable.sql = some (sl "CREATE TABLE us (") ∧
      findIdLine usTable.sql = some (sl "id t\n);\n") ∧
      emitRelatedTable [] usTable =
        sl "CREATE TABLE us (" ++ sl "\n    " ++ sl "id t\n);\n" ++ sl "\n);\n\n") := by
  refine ⟨⟨by decide, ?_⟩, ⟨by decide, by decide, ?_⟩, ⟨by decide, by decide, by decide, ?_⟩⟩
  · exact (c7_related_table_emission [sl "US"] usTable).1 (by decide)
  · exact (c7_related_table_emission [] noIdTable).2.1 (by decide) (by decide)
  · exact (c7_related_table_emission [] usTable).2.2 (sl "CREATE TABLE us (") (sl "id t\n);\n")
      (by decide) (by decide) (by decide)

/-- C9: a whitelist entry matching no related table changes no related-table
emission, yet every known foreign key with an endpoint of that bare name is
still included in the relevant set. -/
theorem c9_whitelist_inert_for_tables_not_fks (filtered rl : List Table) (wl : List Str) (w : Str)
    (fks : List ForeignKey)
    (hnone : ∀ t ∈ rl, eqFold t.name w = false) :
    rl.map (emitRelatedTable (w :: wl)) = rl.map (emitRelatedTable wl) ∧
    (∀ fk ∈ fks, (eqFold fk.fromTable w || eqFold fk.toTable w) = true →
      ∃ fk' ∈ findRelevantForeignKeys filtered rl (w :: wl) fks,
        fk'.sql = fk.sql) := by
  constructor
  · apply List.map_congr_left
    intro t ht
    unfold emitRelatedTable
    have : isWhitelistedName (w :: wl) t.name = isWhitelistedName wl t.name := by
      unfold isWhitelistedName
      rw [List.any_cons]
      have heq : eqFold t.name w = false := hnone t ht
      rw [heq]
      simp
    rw [this]
  · intro fk hmem hcond
    have hp : fkPasses filtered (w :: wl) fk = true := by
      unfold fkPasses isWhitelistedName
      rw [List.any_cons, List.any_cons]
      rcases Bool.or_eq_true_iff.mp hcond with hc | hc <;> simp [hc]
    have hws : (fk.sql, fk) ∈ fks.filterMap (fun fk =>
        if fkPasses filtered (w :: wl) fk = true then some (fk.sql, fk) else none) :=
      List.mem_filterMap.mpr ⟨fk, hmem, by rw [if_pos hp]⟩
    have hsome := lookupEnt_writeAll_isSome _ ([] : List (Str × ForeignKey)) _ _ hws
    unfold findRelevantForeignKeys relevantFKAssoc
    rcases hl : lookupEnt (writeAll (fks.filterMap (fun fk =>
        if fkPasses filtered (w :: wl) fk = true then some (fk.sql, fk) else none)) []) fk.sql with _ | v
    · rw [hl] at hsome; simp at hsome
    · have hvm := lookupEnt_eq_some_mem _ _ _ hl
      refine ⟨v, mem_map_snd _ _ hvm, ?_⟩
      -- every entry with key fk.sql stores a value whose sql is fk.sql
      rcases mem_writeAll _ _ _ hvm with hw | hw
      · rcases List.mem_filterMap.mp hw with ⟨a, ha, hfa⟩
        by_cases hpa : fkPasses filtered (w :: wl) a = true
        · rw [if_pos hpa] at hfa
          injection hfa with e1
          injection e1 with e2 e3
          rw [← e3, e2]
        · rw [Bool.not_eq_true] at hpa
          rw [if_neg (by simp [hpa])] at hfa
          exact absurd hfa (by simp)
      · simp at hw

/-! ## Scanner termination (statement accumulation loop) -/

theorem parseTablesAux_cons_some (l : Str) (ls : List Str) (t : Table)
    (d : Int) (acc : List Table) :
    parseTablesAux (l :: ls) (some (t, d)) acc =
      if (decide (d + parDelta l ≤ 0) && containsSub l (sl ");")) = true then
        parseTablesAux ls none ({ t with sql := t.sql ++ l ++ ['\n'] } :: acc)
      else
        parseTablesAux ls
          (some ({ t with sql := t.sql ++ l ++ ['\n'] }, d + parDelta l)) acc := rfl

theorem parseTablesAux_close (lines : List Str) :
    ∀ (t : Table) (d : Int) (acc : List Table) (i : Nat),
      closeIdx d lines = some i →
      parseTablesAux lines (some (t, d)) acc =
        parseTablesAux (lines.drop (i + 1)) none
          (extendTable t (lines.take (i + 1)) :: acc) := by
  induction lines with
  | nil =>
    intro t d acc i h
    simp [closeIdx] at h
  | cons l ls ih =>
    intro t d acc i h
    unfold closeIdx at h
    by_cases hc : (decide (d + parDelta l ≤ 0) && containsSub l (sl ");")) = true
    · rw [if_pos hc] at h
      injection h with hi
      subst hi
      rw [parseTablesAux_cons_some, if_pos hc]
      rw [List.drop_succ_cons, List.take_succ_cons]
      simp [extendTable]
    · rw [if_neg hc] at h
      rcases Option.map_eq_some'.mp h with ⟨j, hj, rfl⟩
      rw [parseTablesAux_cons_some, if_neg hc]
      rw [ih _ _ _ _ hj]
      rw [List.drop_succ_cons, List.take_succ_cons]
      simp [extendTable, List.append_assoc]

theorem parseTablesAux_noclose (lines : List Str) :
    ∀ (t : Table) (d : Int) (acc : List Table),
      closeIdx d lines = none →
      parseTablesAux lines (some (t, d)) acc = acc.reverse := by
  induction lines with
  | nil =>
    intro t d acc _
    rfl
  | cons l ls ih =>
    intro t d acc h
    unfold closeIdx at h
    by_cases hc : (decide (d + parDelta l ≤ 0) && containsSub l (sl ");")) = true
    · rw [if_pos hc] at h
      exact absurd h (by simp)
    · rw [if_neg hc] at h
      rw [parseTablesAux_cons_some, if_neg hc]
      exact ih _ _ _ (by simpa using h)
/-- C5 counterexample: a single-line `CREATE TABLE` whose opening line has
parenthesis depth 0 and contains `);` is nevertheless dropped: the scanner
never tests the termination condition on the opening line. -/
theorem c5_single_line_table_dropped :
    startsCreateTable (sl "CREATE TABLE t (id integer);") = true ∧
    (extractTableName (sl "CREATE TABLE t (id integer);")).isSome = true ∧
    parDelta (sl "CREATE TABLE t (id integer);") ≤ 0 ∧
    containsSub (sl "CREATE TABLE t (id integer);") (sl ");") = true ∧
    parseTables [sl "CREATE TABLE t (id integer);"] = [] := by
  refine ⟨by decide, by decide, by decide, by decide, by decide⟩

/-- C5 as amended: once a statement is open, it is emitted exactly on the
first SUBSEQUENT line where the running depth is at most 0 and the line
contains `);` (index computed by `closeIdx`); with no such line the
statement is silently dropped at end of input. -/
theorem c5_scanner_termination (lines : List Str) (t : Table) (d : Int)
    (acc : List Table) :
    (∀ i, closeIdx d lines = some i →
      parseTablesAux lines (some (t, d)) acc =
        parseTablesAux (lines.drop (i + 1)) none
          (extendTable t (lines.take (i + 1)) :: acc)) ∧
    (closeIdx d lines = none →
      parseTablesAux lines (some (t, d)) acc = acc.reverse) :=
  ⟨fun i h => parseTablesAux_close lines t d acc i h,
   fun h => parseTablesAux_noclose lines t d acc h⟩

/-! ## Table-name extraction -/

theorem isPfx_self_append (p t : Str) : isPfx p (p ++ t) = true := by
  induction p with
  | nil => rfl
  | cons c p ih => simp [isPfx, ih]

theorem takeWhile_all_append (p : Char → Bool) (xs ys : Str) (d : Char)
    (hall : ∀ c ∈ xs, p c = true) (hd : p d = false) :
    (xs ++ d :: ys).takeWhile p = xs := by
  induction xs with
  | nil => simp [List.takeWhile_cons, hd]
  | cons c xs ih =>
    rw [List.cons_append, List.takeWhile_cons]
    rw [hall c (List.mem_cons_self c xs)]
    simp only [if_true]
    rw [ih (fun c hc => hall c (List.mem_cons_of_mem _ hc))]

theorem word_not_ws (c : Char) (hw : isWordChar c = true) : isWs c = false := by
  rcases hws : isWs c with _ | _
  · rfl
  · exfalso
    unfold isWs at hws
    rcases Bool.or_eq_true_iff.mp hws with h | h
    · rcases Bool.or_eq_true_iff.mp h with h | h
      · rcases Bool.or_eq_true_iff.mp h with h | h
        · rcases Bool.or_eq_true_iff.mp h with h | h
          · rw [show c = ' ' from by simpa using h] at hw
            exact absurd hw (by decide)
          · rw [show c = '\t' from by simpa using h] at hw
            exact absurd hw (by decide)
        · rw [show c = '\n' from by simpa using h] at hw
          exact absurd hw (by decide)
      · rw [show c = Char.ofNat 12 from by simpa using h] at hw
        exact absurd hw (by decide)
    · rw [show c = '\r' from by simpa using h] at hw
      exact absurd hw (by decide)

theorem word_ne_helper (c : Char) (d : Char) (hw : isWordChar c = true)
    (hd : isWordChar d = false) : c ≠ d := by
  intro h
  rw [h] at hw
  rw [hw] at hd
  simp at hd

theorem beq_nil_false_of_ne {xs : Str} (h : xs ≠ []) : (xs == []) = false := by
  rcases hb : (xs == ([] : Str)) with _ | _
  · rfl
  · exact absurd (by simpa using hb) h

theorem wsParenOk_space_paren (rest : Str) :
    wsParenOk (' ' :: '(' :: rest) = true := by
  unfold wsParenOk
  rw [List.dropWhile_cons]
  rw [show isWs ' ' = true from by decide]
  simp only [if_true]
  rw [List.dropWhile_cons]
  rw [show isWs '(' = false from by decide]
  simp

theorem tryName_sp (nm rest : Str) (hn1 : nm ≠ [])
    (hn2 : ∀ c ∈ nm, isWordChar c = true) :
    tryName (nm ++ ' ' :: '(' :: rest) = some nm := by
  simp only [tryName]
  rw [takeWhile_all_append _ nm ('(' :: rest) ' ' hn2 (by decide)]
  rw [beq_nil_false_of_ne hn1]
  simp only [Bool.false_eq_true, if_false]
  rw [List.drop_left]
  simp only [List.head?_cons]
  rw [wsParenOk_space_paren]
  simp

theorem tryName_quote (nm rest : Str) (hn1 : nm ≠ [])
    (hn2 : ∀ c ∈ nm, isWordChar c = true) :
    tryName (nm ++ '"' :: ' ' :: '(' :: rest) = some nm := by
  simp only [tryName]
  rw [takeWhile_all_append _ nm (' ' :: '(' :: rest) '"' hn2 (by decide)]
  rw [beq_nil_false_of_ne hn1]
  simp only [Bool.false_eq_true, if_false]
  rw [List.drop_left]
  simp only [List.head?_cons, List.drop_one, List.tail_cons]
  rw [wsParenOk_space_paren]
  simp

theorem tryGroups_qualified (sch nm tl : Str) (hs1 : sch ≠ [])
    (hs2 : ∀ c ∈ sch, isWordChar c = true)
    (htn : tryName (nm ++ tl) = some nm) :
    tryGroups (sch ++ '.' :: (nm ++ tl)) = some (sch, nm) := by
  simp only [tryGroups]
  rw [takeWhile_all_append _ sch (nm ++ tl) '.' hs2 (by decide)]
  rw [List.drop_left]
  rw [beq_nil_false_of_ne hs1]
  simp only [Bool.not_false, List.head?_cons, Bool.true_and]
  rw [show (some '.' == some '.') = true from by decide]
  simp only [if_true, List.drop_one, List.tail_cons]
  rw [htn]
  rfl

theorem tryGroups_bare (nm : Str) (d : Char) (ds : Str)
    (hd : isWordChar d = false) (hdot : ¬d = '.')
    (htn : tryName (nm ++ d :: ds) = some nm)
    (hn2 : ∀ c ∈ nm, isWordChar c = true) :
    tryGroups (nm ++ d :: ds) = some ([], nm) := by
  simp only [tryGroups]
  rw [takeWhile_all_append _ nm ds d hn2 hd]
  rw [List.drop_left]
  simp only [List.head?_cons]
  have hde : (some d == some '.') = false := by
    rcases hb : (some d == some '.') with _ | _
    · rfl
    · exact absurd (by simpa using hb) hdot
  simp only [hde, Bool.and_false, Bool.false_eq_true, if_false]
  rw [htn]
  rfl

theorem findTableName_of_at (l : Str) (r : Str × Str)
    (h : tableNameAt l = some r) : findTableName l = some r := by
  cases l with
  | nil =>
    rw [show tableNameAt [] = none from by decide] at h
    exact absurd h (by simp)
  | cons c rest =>
    unfold findTableName
    rw [h]
    rfl

theorem tableNameAt_shape (d : Char) (ds : Str) (hd : isWs d = false) :
    tableNameAt (sl "CREATE TABLE " ++ d :: ds) =
      (tryGroups (if (some d == some '"') = true then ds else d :: ds) <|>
        (if (some d == some '"') = true then tryGroups (d :: ds) else none)) := by
  unfold tableNameAt
  have hlow : lower (sl "CREATE TABLE " ++ d :: ds) =
      sl "create table" ++ (' ' :: lower (d :: ds)) := by
    rw [show (sl "CREATE TABLE " ++ d :: ds : Str) =
      sl "CREATE TABLE " ++ (d :: ds) from rfl]
    unfold lower
    rw [List.map_append]
    rfl
  rw [hlow, isPfx_self_append]
  simp only [if_true]
  rw [show (sl "CREATE TABLE " ++ d :: ds).drop 12 = ' ' :: d :: ds from rfl]
  rw [List.takeWhile_cons]
  rw [show isWs ' ' = true from by decide]
  simp only [if_true]
  rw [List.takeWhile_cons, hd]
  simp only [Bool.false_eq_true, if_false]
  rw [show (([' '] : Str) == []) = false from by decide]
  simp only [Bool.false_eq_true, if_false, List.length_cons, List.length_nil,
    List.drop_succ_cons, List.drop_zero, List.head?_cons]

theorem extract_qualified (sch nm rest : Str) (hs1 : sch ≠ [])
    (hs2 : ∀ c ∈ sch, isWordChar c = true) (hn1 : nm ≠ [])
    (hn2 : ∀ c ∈ nm, isWordChar c = true) :
    extractTableName (sl "CREATE TABLE " ++ sch ++ sl "." ++ nm ++ sl " (" ++ rest) =
      some (sch, nm) := by
  obtain ⟨c, sch', rfl⟩ : ∃ c sch', sch = c :: sch' := by
    cases sch with
    | nil => exact absurd rfl hs1
    | cons c s => exact ⟨c, s, rfl⟩
  have hcw : isWordChar c = true := hs2 c (List.mem_cons_self c sch')
  have hxshape : (sl "CREATE TABLE " ++ (c :: sch') ++ sl "." ++ nm ++ sl " (" ++ rest : Str) =
      sl "CREATE TABLE " ++ c :: (sch' ++ '.' :: (nm ++ ' ' :: '(' :: rest)) := by
    simp [List.append_assoc, show sl "." = ['.'] from rfl,
      show sl " (" = [' ', '('] from rfl]
  rw [hxshape]
  unfold extractTableName
  have hat : tableNameAt (sl "CREATE TABLE " ++ c :: (sch' ++ '.' :: (nm ++ ' ' :: '(' :: rest))) =
      some (c :: sch', nm) := by
    rw [tableNameAt_shape c _ (word_not_ws c hcw)]
    have hbq : (some c == some '"') = false := by
      rcases hb : (some c == some '"') with _ | _
      · rfl
      · exact absurd (by simpa using hb) (word_ne_helper c '"' hcw (by decide))
    simp only [hbq, Bool.false_eq_true, if_false]
    have : (c :: (sch' ++ '.' :: (nm ++ ' ' :: '(' :: rest)) : Str) =
        (c :: sch') ++ '.' :: (nm ++ ' ' :: '(' :: rest) := rfl
    rw [this, tryGroups_qualified (c :: sch') nm (' ' :: '(' :: rest) hs1 hs2
      (tryName_sp nm rest hn1 hn2)]
    rfl
  rw [findTableName_of_at _ _ hat]
  simp only [Option.map_some']
  rfl

theorem extract_quoted_qualified (sch nm rest : Str) (hs1 : sch ≠ [])
    (hs2 : ∀ c ∈ sch, isWordChar c = true) (hn1 : nm ≠ [])
    (hn2 : ∀ c ∈ nm, isWordChar c = true) :
    extractTableName (sl "CREATE TABLE \"" ++ sch ++ sl "." ++ nm ++ sl "\" (" ++ rest) =
      some (sch, nm) := by
  have hxshape : (sl "CREATE TABLE \"" ++ sch ++ sl "." ++ nm ++ sl "\" (" ++ rest : Str) =
      sl "CREATE TABLE " ++ '"' :: (sch ++ '.' :: (nm ++ '"' :: ' ' :: '(' :: rest)) := by
    simp [List.append_assoc, show sl "." = ['.'] from rfl,
      show sl "\" (" = ['"', ' ', '('] from rfl,
      show (sl "CREATE TABLE \"" : Str) = sl "CREATE TABLE " ++ ['"'] from rfl]
  rw [hxshape]
  unfold extractTableName
  have hat : tableNameAt (sl "CREATE TABLE " ++ '"' :: (sch ++ '.' :: (nm ++ '"' :: ' ' :: '(' :: rest))) =
      some (sch, nm) := by
    rw [tableNameAt_shape '"' _ (by decide)]
    simp only [show (some '"' == some '"') = true from by decide, if_true]
    rw [tryGroups_qualified sch nm ('"' :: ' ' :: '(' :: rest) hs1 hs2
      (tryName_quote nm rest hn1 hn2)]
    rfl
  rw [findTableName_of_at _ _ hat]
  simp only [Option.map_some']
  rw [beq_nil_false_of_ne hs1]
  rfl

theorem extract_bare (nm rest : Str) (hn1 : nm ≠ [])
    (hn2 : ∀ c ∈ nm, isWordChar c = true) :
    extractTableName (sl "CREATE TABLE " ++ nm ++ sl " (" ++ rest) =
      some (sl "public", nm) := by
  obtain ⟨c, nm', rfl⟩ : ∃ c nm', nm = c :: nm' := by
    cases nm with
    | nil => exact absurd rfl hn1
    | cons c s => exact ⟨c, s, rfl⟩
  have hcw : isWordChar c = true := hn2 c (List.mem_cons_self c nm')
  have hxshape : (sl "CREATE TABLE " ++ (c :: nm') ++ sl " (" ++ rest : Str) =
      sl "CREATE TABLE " ++ c :: (nm' ++ ' ' :: '(' :: rest) := by
    simp [List.append_assoc, show sl " (" = [' ', '('] from rfl]
  rw [hxshape]
  unfold extractTableName
  have hat : tableNameAt (sl "CREATE TABLE " ++ c :: (nm' ++ ' ' :: '(' :: rest)) =
      some ([], c :: nm') := by
    rw [tableNameAt_shape c _ (word_not_ws c hcw)]
    have hbq : (some c == some '"') = false := by
      rcases hb : (some c == some '"') with _ | _
      · rfl
      · exact absurd (by simpa using hb) (word_ne_helper c '"' hcw (by decide))
    simp only [hbq, Bool.false_eq_true, if_false]
    have : (c :: (nm' ++ ' ' :: '(' :: rest) : Str) =
        (c :: nm') ++ ' ' :: '(' :: rest := rfl
    rw [this, tryGroups_bare (c :: nm') ' ' ('(' :: rest) (by decide) (by decide)
      (tryName_sp (c :: nm') rest hn1 hn2) hn2]
    rfl
  rw [findTableName_of_at _ _ hat]
  rfl

theorem extract_quoted_bare (nm rest : Str) (hn1 : nm ≠ [])
    (hn2 : ∀ c ∈ nm, isWordChar c = true) :
    extractTableName (sl "CREATE TABLE \"" ++ nm ++ sl "\" (" ++ rest) =
      some (sl "public", nm) := by
  have hxshape : (sl "CREATE TABLE \"" ++ nm ++ sl "\" (" ++ rest : Str) =
      sl "CREATE TABLE " ++ '"' :: (nm ++ '"' :: ' ' :: '(' :: rest) := by
    simp [List.append_assoc, show sl "\" (" = ['"', ' ', '('] from rfl,
      show (sl "CREATE TABLE \"" : Str) = sl "CREATE TABLE " ++ ['"'] from rfl]
  rw [hxshape]
  unfold extractTableName
  have hat : tableNameAt (sl "CREATE TABLE " ++ '"' :: (nm ++ '"' :: ' ' :: '(' :: rest)) =
      some ([], nm) := by
    rw [tableNameAt_shape '"' _ (by decide)]
    simp only [show (some '"' == some '"') = true from by decide, if_true]
    rw [tryGroups_bare nm '"' (' ' :: '(' :: rest) (by decide) (by decide)
      (tryName_quote nm rest hn1 hn2) hn2]
    rfl
  rw [findTableName_of_at _ _ hat]
  rfl

/-! ## Enum usage: every matched enum lives in schema `public` -/

theorem charOfNat_toNat {n : Nat} (h : n < 55296) : (Char.ofNat n).toNat = n := by
  simp [Char.ofNat, Char.toNat]
  split
  · rfl
  · rename_i hv
    exfalso
    apply hv
    constructor
    omega

theorem toLower_eq_dot (c : Char) (h : c.toLower = '.') : c = '.' := by
  unfold Char.toLower at h
  by_cases hc : c.toNat ≥ 65 ∧ c.toNat ≤ 90
  · rw [if_pos hc] at h
    have h2 := congrArg Char.toNat h
    rw [charOfNat_toNat (by omega)] at h2
    have h4 : ('.' : Char).toNat = 46 := by decide
    rw [h4] at h2
    exact absurd h2 (by omega)
  · rwa [if_neg hc] at h

theorem pubchar_facts (c : Char) (h : c.toLower ∈ sl "public.") :
    ¬c = 'D' ∧ ¬c = 'N' ∧ isSpaceGo c = false := by
  refine ⟨?_, ?_, ?_⟩
  · rintro rfl
    exact absurd h (by decide)
  · rintro rfl
    exact absurd h (by decide)
  · rcases hs : isSpaceGo c with _ | _
    · rfl
    · exfalso
      unfold isSpaceGo at hs
      rcases Bool.or_eq_true_iff.mp hs with h1 | h1
      · rcases Bool.or_eq_true_iff.mp h1 with h1 | h1
        · rcases Bool.or_eq_true_iff.mp h1 with h1 | h1
          · rcases Bool.or_eq_true_iff.mp h1 with h1 | h1
            · rcases Bool.or_eq_true_iff.mp h1 with h1 | h1
              · rw [show c = ' ' from by simpa using h1] at h
                exact absurd h (by decide)
              · rw [show c = '\t' from by simpa using h1] at h
                exact absurd h (by decide)
            · rw [show c = '\n' from by simpa using h1] at h
              exact absurd h (by decide)
          · rw [show c = Char.ofNat 11 from by simpa using h1] at h
            exact absurd h (by decide)
        · rw [show c = Char.ofNat 12 from by simpa using h1] at h
          exact absurd h (by decide)
      · rw [show c = '\r' from by simpa using h1] at h
        exact absurd h (by decide)

theorem takeBeforeFirst_take (sep : Str) (d : Char) (sep' : Str)
    (hsep : sep = d :: sep') :
    ∀ (n : Nat) (x : Str), (∀ c ∈ x.take n, ¬c = d) →
      (takeBeforeFirst x sep).take n = x.take n := by
  intro n
  induction n with
  | zero => intro x _; simp
  | succ n ih =>
    intro x hx
    cases x with
    | nil => simp [takeBeforeFirst]
    | cons c r =>
      have hcd : ¬c = d := hx c (by simp)
      have hpf : isPfx sep (c :: r) = false := by
        rw [hsep]
        simp only [isPfx]
        have : (d == c) = false := by
          rcases hb : (d == c) with _ | _
          · rfl
          · exact absurd ((by simpa using hb : d = c)).symm hcd
        rw [this]
        rfl
      unfold takeBeforeFirst
      rw [hpf]
      simp only [Bool.false_eq_true, if_false, List.take_succ_cons]
      rw [ih r (fun c' hc' => hx c' (by simp [hc']))]

theorem dropWhile_append_of_head_false (p : Char → Bool) (l1 l2 : Str)
    (h : match l2.head? with
         | some c => p c = false
         | none => True) :
    (l1 ++ l2).dropWhile p = l1.dropWhile p ++ l2 := by
  induction l1 with
  | nil =>
    simp only [List.nil_append, List.dropWhile_nil]
    cases l2 with
    | nil => rfl
    | cons c r =>
      simp only [List.head?_cons] at h
      rw [List.dropWhile_cons, h]
      simp
  | cons a l1 ih =>
    rw [List.cons_append, List.dropWhile_cons, List.dropWhile_cons]
    by_cases hp : p a = true
    · rw [hp]
      simp only [if_true]
      exact ih
    · rw [Bool.not_eq_true] at hp
      rw [hp]
      simp

theorem trimSpace_take7 (y : Str) (h : lower (y.take 7) = sl "public.") :
    (trimSpace y).take 7 = y.take 7 := by
  have hlen : (y.take 7).length = 7 := by
    have hl := congrArg List.length h
    rw [show (sl "public.").length = 7 from rfl] at hl
    simp only [lower, List.length_map] at hl
    exact hl
  have hy : y.take 7 ++ y.drop 7 = y := List.take_append_drop 7 y
  obtain ⟨c0, y7', hy7⟩ : ∃ c0 y7', y.take 7 = c0 :: y7' := by
    cases hys : y.take 7 with
    | nil => rw [hys] at hlen; simp at hlen
    | cons a b => exact ⟨a, b, rfl⟩
  have hc0 : c0.toLower = 'p' := by
    rw [hy7] at h
    have hh := congrArg List.head? h
    simp only [lower, List.map_cons, List.head?_cons] at hh
    rw [show List.head? (sl "public.") = some 'p' from rfl] at hh
    exact Option.some.inj hh
  have hspc0 : isSpaceGo c0 = false :=
    (pubchar_facts c0 (by rw [hc0]; decide)).2.2
  have hstepA : y.dropWhile isSpaceGo = y := by
    conv_lhs => rw [← hy, hy7]
    rw [List.cons_append, List.dropWhile_cons, hspc0]
    simp only [Bool.false_eq_true, if_false]
    rw [← List.cons_append, ← hy7, hy]
  obtain ⟨e0, z, hz⟩ : ∃ e0 z, (y.take 7).reverse = e0 :: z := by
    cases hys : (y.take 7).reverse with
    | nil =>
      exfalso
      have hl2 := congrArg List.length hys
      simp [hlen] at hl2
    | cons a b => exact ⟨a, b, rfl⟩
  have he0 : e0.toLower = '.' := by
    have hrev : lower ((y.take 7).reverse) = (sl "public.").reverse := by
      rw [← h]
      unfold lower
      rw [List.map_reverse]
    rw [hz] at hrev
    have hh := congrArg List.head? hrev
    rw [show ((sl "public.").reverse).head? = some '.' from rfl] at hh
    simp only [lower, List.map_cons, List.head?_cons] at hh
    exact Option.some.inj hh
  have hspe0 : isSpaceGo e0 = false := by
    rw [toLower_eq_dot e0 he0]
    decide
  unfold trimSpace
  rw [hstepA]
  conv_lhs =>
    rw [show y.reverse = (y.drop 7).reverse ++ (y.take 7).reverse from by
      rw [← List.reverse_append, hy]]
  rw [dropWhile_append_of_head_false isSpaceGo _ _ (by
    rw [hz]
    simpa using hspe0)]
  rw [List.reverse_append, List.reverse_reverse]
  rw [List.take_left' hlen]

theorem enumCandAt_take7 (cs m after : Str)
    (h : enumCandAt cs = some (m, after)) : lower (m.take 7) = sl "public." := by
  unfold enumCandAt at h
  by_cases hp : (lower (cs.take 7) == sl "public.") = true
  · rw [if_pos hp] at h
    by_cases hw : ((cs.drop 7).takeWhile isWordChar == ([] : Str)) = true
    · rw [if_pos hw] at h
      exact absurd h (by simp)
    · rw [if_neg hw] at h
      injection h with h1
      injection h1 with h2 h3
      have hpe : lower (cs.take 7) = sl "public." := by simpa using hp
      have hlen : (cs.take 7).length = 7 := by
        have hl := congrArg List.length hpe
        rw [show (sl "public.").length = 7 from rfl] at hl
        simp only [lower, List.length_map] at hl
        exact hl
      rw [← h2]
      rw [List.append_assoc]
      rw [List.take_left' hlen]
      exact hpe
  · rw [if_neg hp] at h
    exact absurd h (by simp)

theorem enumCandsAux_take7 (f : Nat) :
    ∀ (s : Str) (m : Str), m ∈ enumCandsAux f s → lower (m.take 7) = sl "public." := by
  induction f with
  | zero => intro s m hm; simp [enumCandsAux] at hm
  | succ f ih =>
    intro s m hm
    cases s with
    | nil => simp [enumCandsAux] at hm
    | cons c rest =>
      unfold enumCandsAux at hm
      rcases hat : enumCandAt (c :: rest) with _ | p
      · rw [hat] at hm
        exact ih rest m hm
      · obtain ⟨mm, after⟩ := p
        rw [hat] at hm
        rcases List.mem_cons.mp hm with rfl | hm
        · exact enumCandAt_take7 (c :: rest) m after hat
        · exact ih after m hm

theorem enumCands_take7 (sql m : Str) (h : m ∈ enumCands sql) :
    lower (m.take 7) = sl "public." :=
  enumCandsAux_take7 sql.length sql m h

theorem mem_take_pub (x : Str) (h : lower (x.take 7) = sl "public.")
    (c : Char) (hc : c ∈ x.take 7) : c.toLower ∈ sl "public." := by
  rw [← h]
  exact List.mem_map_of_mem Char.toLower hc

theorem typeNameOf_take7 (m : Str) (h : lower (m.take 7) = sl "public.") :
    lower ((typeNameOf m).take 7) = sl "public." := by
  unfold typeNameOf
  have h1 : (takeBeforeFirst m (sl "DEFAULT")).take 7 = m.take 7 := by
    apply takeBeforeFirst_take (sl "DEFAULT") 'D' (sl "EFAULT") rfl
    intro c hc
    exact (pubchar_facts c (mem_take_pub m h c hc)).1
  have h2 : (trimSpace (takeBeforeFirst m (sl "DEFAULT"))).take 7 =
      m.take 7 := by
    rw [trimSpace_take7 _ (by rw [h1]; exact h), h1]
  have h3 : (takeBeforeFirst (trimSpace (takeBeforeFirst m (sl "DEFAULT")))
      (sl "NOT NULL")).take 7 = m.take 7 := by
    rw [takeBeforeFirst_take (sl "NOT NULL") 'N' (sl "OT NULL") rfl _ _ ?hc, h2]
    case hc =>
      intro c hc
      rw [h2] at hc
      exact (pubchar_facts c (mem_take_pub m h c hc)).2.1
  rw [trimSpace_take7 _ (by rw [h3]; exact h), h3]
  exact h

theorem splitAllAux_dot_free (f : Nat) :
    ∀ (s cur : Str), s.length ≤ f → (∀ c ∈ cur, ¬c = '.') →
      ∀ p ∈ splitAllAux f s (sl ".") cur, ∀ c ∈ p, ¬c = '.' := by
  induction f with
  | zero =>
    intro s cur hf hcur p hp c hc
    simp only [splitAllAux] at hp
    rcases List.mem_singleton.mp hp with rfl
    have hs : s = [] := List.length_eq_zero.mp (Nat.le_zero.mp hf)
    rw [hs, List.append_nil] at hc
    exact hcur c (List.mem_reverse.mp hc)
  | succ f ih =>
    intro s cur hf hcur p hp c hc
    cases s with
    | nil =>
      simp only [splitAllAux] at hp
      rcases List.mem_singleton.mp hp with rfl
      exact hcur c (List.mem_reverse.mp hc)
    | cons a rest =>
      simp only [splitAllAux] at hp
      by_cases hpf : isPfx (sl ".") (a :: rest) = true
      · rw [if_pos hpf] at hp
        rcases List.mem_cons.mp hp with rfl | hp
        · exact hcur c (List.mem_reverse.mp hc)
        · have hlen : ((a :: rest).drop (sl ".").length).length ≤ f := by
            rw [show (sl ".").length = 1 from rfl]
            simp only [List.drop_succ_cons, List.drop_zero]
            have := Nat.le_of_succ_le_succ hf
            simpa using this
          exact ih _ [] hlen (by intro c hc; simp at hc) p hp c hc
      · rw [if_neg hpf] at hp
        have ha : ¬a = '.' := by
          intro haa
          apply hpf
          rw [haa]
          rfl
        have hlen : rest.length ≤ f := Nat.le_of_succ_le_succ hf
        refine ih rest (a :: cur) hlen ?_ p hp c hc
        intro c' hc'
        rcases List.mem_cons.mp hc' with rfl | hc'
        · exact ha
        · exact hcur c' hc'

theorem splitAll_dot_free (s : Str) (p : Str) (hp : p ∈ splitAll s (sl "."))
    (c : Char) (hc : c ∈ p) : ¬c = '.' :=
  splitAllAux_dot_free s.length s [] (Nat.le_refl _)
    (by intro c hc; simp at hc) p hp c hc

theorem splitAllAux_chars (f : Nat) :
    ∀ (s sep cur : Str), ∀ p ∈ splitAllAux f s sep cur, ∀ c ∈ p,
      c ∈ cur.reverse ++ s := by
  induction f with
  | zero =>
    intro s sep cur p hp c hc
    simp only [splitAllAux] at hp
    rcases List.mem_singleton.mp hp with rfl
    exact hc
  | succ f ih =>
    intro s sep cur p hp c hc
    cases s with
    | nil =>
      simp only [splitAllAux] at hp
      rcases List.mem_singleton.mp hp with rfl
      simpa using hc
    | cons a rest =>
      simp only [splitAllAux] at hp
      by_cases hpf : isPfx sep (a :: rest) = true
      · rw [if_pos hpf] at hp
        rcases List.mem_cons.mp hp with rfl | hp
        · exact List.mem_append_left _ hc
        · have := ih _ sep [] p hp c hc
          simp only [List.reverse_nil, List.nil_append] at this
          apply List.mem_append_right
          exact List.drop_subset _ _ this
      · rw [if_neg hpf] at hp
        have := ih rest sep (a :: cur) p hp c hc
        simp only [List.reverse_cons] at this
        rcases List.mem_append.mp this with h1 | h1
        · rcases List.mem_append.mp h1 with h2 | h2
          · exact List.mem_append_left _ h2
          · apply List.mem_append_right
            rcases List.mem_singleton.mp h2 with rfl
            exact List.mem_cons_self c rest
        · apply List.mem_append_right
          exact List.mem_cons_of_mem _ h1

theorem trimSpace_subset (s : Str) (c : Char) (hc : c ∈ trimSpace s) : c ∈ s := by
  unfold trimSpace at hc
  rw [List.mem_reverse] at hc
  have h1 := (List.dropWhile_sublist (l := (s.dropWhile isSpaceGo).reverse) isSpaceGo).subset hc
  rw [List.mem_reverse] at h1
  exact (List.dropWhile_sublist isSpaceGo).subset h1

theorem parseEnumStart_dot_free (line : Str) (e : EnumType)
    (h : parseEnumStart line = some e) :
    (∀ c ∈ e.schema, ¬c = '.') ∧ (∀ c ∈ e.name, ¬c = '.') := by
  unfold parseEnumStart at h
  by_cases hc : (containsSub line (sl "CREATE TYPE") &&
      containsSub line (sl "AS ENUM")) = true
  · rw [if_pos hc] at h
    split at h
    · rename_i p0 p1 hsp
      split at h
      · rename_i t1 ts hts
        injection h with he
        subst he
        constructor
        · intro c hcm
          have hct1 : c ∈ t1 := trimSpace_subset t1 c hcm
          have ht1m : t1 ∈ splitAll p0 (sl "TYPE") := by
            have hmem : t1 ∈ (splitAll p0 (sl "TYPE")).drop 1 := by
              rw [hts]
              exact List.mem_cons_self t1 ts
            exact List.drop_subset _ _ hmem
          have hcp0 : c ∈ p0 := by
            simpa using splitAllAux_chars p0.length p0 (sl "TYPE") [] t1 ht1m c hct1
          exact splitAll_dot_free _ p0
            (by rw [hsp]; exact List.mem_cons_self _ _) c hcp0
        · intro c hcm
          have hcp1 : c ∈ p1 := trimSpace_subset p1 c hcm
          exact splitAll_dot_free _ p1
            (by rw [hsp]; exact List.mem_cons_of_mem _ (List.mem_cons_self _ _)) c hcp1
      · exact absurd h (by simp)
    · exact absurd h (by simp)
  · rw [if_neg hc] at h
    exact absurd h (by simp)

theorem parseEnumsAux_dot_free :
    ∀ (lines : List Str) (st : Option EnumType) (acc : List EnumType),
      (∀ e0, st = some e0 → (∀ c ∈ e0.schema, ¬c = '.') ∧ (∀ c ∈ e0.name, ¬c = '.')) →
      (∀ e0 ∈ acc, (∀ c ∈ e0.schema, ¬c = '.') ∧ (∀ c ∈ e0.name, ¬c = '.')) →
      ∀ e ∈ parseEnumsAux lines st acc,
        (∀ c ∈ e.schema, ¬c = '.') ∧ (∀ c ∈ e.name, ¬c = '.') := by
  intro lines
  induction lines with
  | nil =>
    intro st acc _ hacc e he
    exact hacc e (List.mem_reverse.mp he)
  | cons l ls ih =>
    intro st acc hst hacc e he
    cases st with
    | none =>
      unfold parseEnumsAux at he
      rcases hps : parseEnumStart l with _ | e1
      · rw [hps] at he
        exact ih none acc (by intro e0 h0; exact absurd h0 (by simp)) hacc e he
      · rw [hps] at he
        refine ih (some e1) acc ?_ hacc e he
        intro e0 h0
        injection h0 with h0
        exact h0 ▸ parseEnumStart_dot_free l e1 hps
    | some e1 =>
      unfold parseEnumsAux at he
      have he1 := hst e1 rfl
      by_cases hcc : containsSub l (sl ");") = true
      · rw [if_pos hcc] at he
        refine ih none _ (by intro e0 h0; exact absurd h0 (by simp)) ?_ e he
        intro e0 h0
        rcases List.mem_cons.mp h0 with rfl | h0
        · exact he1
        · exact hacc e0 h0
      · rw [if_neg hcc] at he
        refine ih (some _) acc ?_ hacc e he
        intro e0 h0
        injection h0 with h0
        exact h0 ▸ he1

theorem parseEnums_dot_free (lines : List Str) (e : EnumType)
    (h : e ∈ parseEnums lines) :
    (∀ c ∈ e.schema, ¬c = '.') ∧ (∀ c ∈ e.name, ¬c = '.') :=
  parseEnumsAux_dot_free lines none []
    (by intro e0 h0; exact absurd h0 (by simp))
    (by intro e0 h0; exact absurd h0 (by simp)) e h

theorem lower_take (x : Str) (n : Nat) : lower (x.take n) = (lower x).take n := by
  unfold lower
  rw [List.map_take]

/-- C8: every enum in the computed usage set has schema `public` up to
case, because every candidate match starts with a case variant of
`public.` and enum schemas parsed from `CREATE TYPE` lines are dot-free. -/
theorem c8_used_enums_public_schema (tables : List Table) (input : List Str) (e : EnumType)
    (h : e ∈ findUsedEnums tables (parseEnums input)) :
    lower e.schema = sl "public" := by
  unfold findUsedEnums at h
  rcases List.mem_map.mp h with ⟨⟨k, v⟩, hkv, hv⟩
  rcases mem_writeAll _ _ _ hkv with hw | hw
  · unfold enumWrites at hw
    rcases List.mem_flatMap.mp hw with ⟨t, ht, hw2⟩
    unfold enumTableWrites at hw2
    rcases List.mem_flatMap.mp hw2 with ⟨c, hc, hw3⟩
    unfold enumCandWrites at hw3
    rcases List.mem_filterMap.mp hw3 with ⟨e', he', hfe⟩
    by_cases hq : eqFold (typeNameOf c) (fullName e') = true
    · rw [if_pos hq] at hfe
      injection hfe with h1
      injection h1 with h2 h3
      have hee : e' = e := by rw [h3]; exact hv
      subst hee
      -- the candidate's cleaned-up name folds to `public.` on its first 7 chars
      have htake : (lower (typeNameOf c)).take 7 = sl "public." := by
        rw [← lower_take]
        exact typeNameOf_take7 c (enumCands_take7 t.sql c hc)
      have hfold : lower (typeNameOf c) = lower (fullName e') := by
        simpa [eqFold] using hq
      have hdots := parseEnums_dot_free input e' he'
      -- decompose the full name
      have hfn : lower (fullName e') = lower e'.schema ++ '.' :: lower e'.name := by
        unfold fullName lower
        rw [List.map_append, List.map_append]
        rw [show (sl ".").map Char.toLower = ['.'] from rfl]
        rw [List.append_assoc]
        rfl
      have hallS : ∀ ch ∈ lower e'.schema, (!(ch == '.')) = true := by
        intro ch hch
        rcases List.mem_map.mp hch with ⟨c0, hc0, rfl⟩
        have hne : ¬c0.toLower = '.' := fun hd => hdots.1 c0 hc0 (toLower_eq_dot c0 hd)
        simpa using hne
      have hE : (lower (fullName e')).takeWhile (fun ch => !(ch == '.')) =
          lower e'.schema := by
        rw [hfn]
        exact takeWhile_all_append _ _ _ '.' hallS (by decide)
      have hF : (lower (typeNameOf c)).takeWhile (fun ch => !(ch == '.')) =
          sl "public" := by
        conv_lhs => rw [← List.take_append_drop 7 (lower (typeNameOf c)), htake]
        rw [show (sl "public." ++ (lower (typeNameOf c)).drop 7 : Str) =
          sl "public" ++ '.' :: (lower (typeNameOf c)).drop 7 from rfl]
        exact takeWhile_all_append _ _ _ '.' (by decide) (by decide)
      rw [← hE, ← hfold, hF]
    · rw [Bool.not_eq_true] at hq
      rw [if_neg (by simp [hq])] at hfe
      exact absurd hfe (by simp)
  · simp at hw

/-! ## Related tables: structural facts about parsed identifiers -/

theorem tryName_props (cs : Str) (g2 : Str) (h : tryName cs = some g2) :
    g2 ≠ [] ∧ ∀ c ∈ g2, isWordChar c = true := by
  simp only [tryName] at h
  split at h
  · exact absurd h (by simp)
  · rename_i he
    split at h
    · injection h with h1
      subst h1
      refine ⟨?_, fun c hc => List.mem_takeWhile_imp hc⟩
      intro hnil
      apply he
      rw [hnil]
      rfl
    · exact absurd h (by simp)

theorem orElse_eq_some {α : Type} (a b : Option α) (v : α)
    (h : (a <|> b) = some v) : a = some v ∨ (a = none ∧ b = some v) := by
  rcases a with _ | u
  · right
    exact ⟨rfl, by simpa using h⟩
  · left
    simpa using h

theorem tryGroups_props (cs : Str) (s n : Str) (h : tryGroups cs = some (s, n)) :
    (∀ c ∈ s, isWordChar c = true) ∧ n ≠ [] ∧ ∀ c ∈ n, isWordChar c = true := by
  simp only [tryGroups] at h
  rcases orElse_eq_some _ _ _ h with h1 | ⟨h0, h1⟩
  · split at h1
    · rcases Option.map_eq_some'.mp h1 with ⟨nm, hnm, heq⟩
      injection heq with e1 e2
      have hp := tryName_props _ nm hnm
      refine ⟨?_, ?_, ?_⟩
      · intro c hc
        rw [← e1] at hc
        exact List.mem_takeWhile_imp hc
      · rw [← e2]
        exact hp.1
      · rw [← e2]
        exact hp.2
    · exact absurd h1 (by simp)
  · rcases Option.map_eq_some'.mp h1 with ⟨nm, hnm, heq⟩
    injection heq with e1 e2
    have hp := tryName_props _ nm hnm
    refine ⟨?_, ?_, ?_⟩
    · intro c hc
      rw [← e1] at hc
      simp at hc
    · rw [← e2]
      exact hp.1
    · rw [← e2]
      exact hp.2

theorem tableNameAt_props (cs : Str) (s n : Str)
    (h : tableNameAt cs = some (s, n)) :
    (∀ c ∈ s, isWordChar c = true) ∧ n ≠ [] ∧ ∀ c ∈ n, isWordChar c = true := by
  simp only [tableNameAt] at h
  split at h
  · split at h
    · exact absurd h (by simp)
    · rcases orElse_eq_some _ _ _ h with h1 | ⟨h0, h1⟩
      · exact tryGroups_props _ _ _ h1
      · split at h1
        · exact tryGroups_props _ _ _ h1
        · exact absurd h1 (by simp)
  · exact absurd h (by simp)

theorem findTableName_props (l : Str) (s n : Str)
    (h : findTableName l = some (s, n)) :
    (∀ c ∈ s, isWordChar c = true) ∧ n ≠ [] ∧ ∀ c ∈ n, isWordChar c = true := by
  induction l with
  | nil => simp [findTableName] at h
  | cons c rest ih =>
    unfold findTableName at h
    rcases orElse_eq_some _ _ _ h with h1 | ⟨h0, h1⟩
    · exact tableNameAt_props _ _ _ h1
    · exact ih h1

theorem extractTableName_props (l : Str) (s n : Str)
    (h : extractTableName l = some (s, n)) :
    (∀ c ∈ s, ¬c = '.') ∧ (∀ c ∈ n, ¬c = '.') ∧ n ≠ [] := by
  unfold extractTableName at h
  rcases Option.map_eq_some'.mp h with ⟨⟨s0, n0⟩, hfn, heq⟩
  injection heq with e1 e2
  have hp := findTableName_props l s0 n0 hfn
  refine ⟨?_, ?_, ?_⟩
  · intro c hc
    rw [← e1] at hc
    by_cases hz : (s0 == ([] : Str)) = true
    · rw [if_pos hz] at hc
      intro hcd
      rw [hcd] at hc
      exact absurd hc (by decide)
    · rw [if_neg hz] at hc
      exact word_ne_helper c '.' (hp.1 c hc) (by decide)
  · intro c hc
    rw [← e2] at hc
    exact word_ne_helper c '.' (hp.2.2 c hc) (by decide)
  · rw [← e2]
    exact hp.2.1

theorem parseTablesAux_dot_free :
    ∀ (lines : List Str) (st : Option (Table × Int)) (acc : List Table),
      (∀ t0 d0, st = some (t0, d0) →
        (∀ c ∈ t0.schema, ¬c = '.') ∧ (∀ c ∈ t0.name, ¬c = '.')) →
      (∀ t0 ∈ acc, (∀ c ∈ t0.schema, ¬c = '.') ∧ (∀ c ∈ t0.name, ¬c = '.')) →
      ∀ t ∈ parseTablesAux lines st acc,
        (∀ c ∈ t.schema, ¬c = '.') ∧ (∀ c ∈ t.name, ¬c = '.') := by
  intro lines
  induction lines with
  | nil =>
    intro st acc _ hacc t ht
    exact hacc t (List.mem_reverse.mp ht)
  | cons l ls ih =>
    intro st acc hst hacc t ht
    cases st with
    | none =>
      unfold parseTablesAux at ht
      by_cases hsc : startsCreateTable l = true
      · rw [if_pos hsc] at ht
        rcases hex : extractTableName l with _ | p
        · rw [hex] at ht
          exact ih none acc (by intro t0 d0 h0; exact absurd h0 (by simp)) hacc t ht
        · obtain ⟨s0, n0⟩ := p
          rw [hex] at ht
          refine ih _ acc ?_ hacc t ht
          intro t0 d0 h0
          injection h0 with h0
          injection h0 with h1 h2
          have hp := extractTableName_props l s0 n0 hex
          rw [← h1]
          exact ⟨hp.1, hp.2.1⟩
      · rw [if_neg hsc] at ht
        exact ih none acc (by intro t0 d0 h0; exact absurd h0 (by simp)) hacc t ht
    | some p =>
      obtain ⟨t1, d1⟩ := p
      have ht1 := hst t1 d1 rfl
      rw [parseTablesAux_cons_some] at ht
      split at ht
      · refine ih none _ (by intro t0 d0 h0; exact absurd h0 (by simp)) ?_ t ht
        intro t0 h0
        rcases List.mem_cons.mp h0 with rfl | h0
        · exact ht1
        · exact hacc t0 h0
      · refine ih _ acc ?_ hacc t ht
        intro t0 d0 h0
        injection h0 with h0
        injection h0 with h1 h2
        rw [← h1]
        exact ht1

theorem parseTables_dot_free (lines : List Str) (t : Table)
    (h : t ∈ parseTables lines) :
    (∀ c ∈ t.schema, ¬c = '.') ∧ (∀ c ∈ t.name, ¬c = '.') :=
  parseTablesAux_dot_free lines none []
    (by intro t0 d0 h0; exact absurd h0 (by simp))
    (by intro t0 h0; exact absurd h0 (by simp)) t h

theorem keyOf_eq (u : Table) : keyOf u = u.schema ++ '.' :: u.name := by
  unfold keyOf
  rw [List.append_assoc]
  rfl

theorem key_split (a b c d : Str) (ha : ∀ x ∈ a, ¬x = '.')
    (hc : ∀ x ∈ c, ¬x = '.') (h : a ++ '.' :: b = c ++ '.' :: d) :
    a = c ∧ b = d := by
  have hba : ∀ x ∈ a, (!(x == '.')) = true := by
    intro x hx
    simpa using ha x hx
  have hbc : ∀ x ∈ c, (!(x == '.')) = true := by
    intro x hx
    simpa using hc x hx
  have h1 : (a ++ '.' :: b).takeWhile (fun x => !(x == '.')) = a :=
    takeWhile_all_append _ _ _ '.' hba (by decide)
  have h2 : (c ++ '.' :: d).takeWhile (fun x => !(x == '.')) = c :=
    takeWhile_all_append _ _ _ '.' hbc (by decide)
  have hac : a = c := by rw [← h1, ← h2, h]
  subst hac
  refine ⟨rfl, ?_⟩
  have h3 := List.append_cancel_left h
  injection h3

theorem pass1Writes_prop (filtered tables : List Table) (p : Str × Table)
    (hp : p ∈ pass1Writes filtered tables) :
    p.1 = keyOf p.2 ∧ p.2 ∈ tables := by
  unfold pass1Writes at hp
  rcases List.mem_flatMap.mp hp with ⟨t, _, hp2⟩
  rcases List.mem_flatMap.mp hp2 with ⟨l, _, hp3⟩
  rcases hcn : colName l with _ | w
  · rw [hcn] at hp3
    simp at hp3
  · rw [hcn] at hp3
    simp only at hp3
    split at hp3
    · rcases List.mem_filterMap.mp hp3 with ⟨u, hu, hfu⟩
      split at hfu
      · injection hfu with he
        subst he
        exact ⟨rfl, hu⟩
      · exact absurd hfu (by simp)
    · simp at hp3

theorem pass2Step_mem (allT filtered : List Table) (expected : Str) :
    ∀ (m : List (Str × Table)) (p : Str × Table),
      p ∈ pass2Step allT filtered expected m →
      (p.1 = keyOf p.2 ∧ p.2 ∈ allT) ∨ p ∈ m := by
  induction allT with
  | nil => intro m p hp; exact Or.inr hp
  | cons u us ih =>
    intro m p hp
    unfold pass2Step at hp
    rw [List.foldl_cons] at hp
    have hp' : p ∈ pass2Step us filtered expected
        (if (isTableInList u filtered || !(lookupName m (keyOf u) == [])) = true
         then m
         else writeAll ((splitLines u.sql).filterMap (fun l =>
           match colName l with
           | some w => if (lower w == expected) = true then some (keyOf u, u) else none
           | none => none)) m) := by
      unfold pass2Step
      split at hp
      · rw [if_pos (by assumption)]
        exact hp
      · rw [if_neg (by assumption)]
        exact hp
    rcases ih _ p hp' with h1 | h1
    · exact Or.inl ⟨h1.1, List.mem_cons_of_mem _ h1.2⟩
    · split at h1
      · exact Or.inr h1
      · rcases mem_writeAll _ _ _ h1 with h2 | h2
        · rcases List.mem_filterMap.mp h2 with ⟨l, _, hfl⟩
          rcases hcn : colName l with _ | w
          · rw [hcn] at hfl
            exact absurd hfl (by simp)
          · rw [hcn] at hfl
            simp only at hfl
            split at hfl
            · injection hfl with he
              subst he
              exact Or.inl ⟨rfl, List.mem_cons_self u us⟩
            · exact absurd hfl (by simp)
        · exact Or.inr h2

theorem relatedAssoc_mem (filtered tables : List Table) (p : Str × Table)
    (hp : p ∈ relatedAssoc filtered tables) :
    p.1 = keyOf p.2 ∧ p.2 ∈ tables := by
  unfold relatedAssoc at hp
  -- fold over the filtered list, each step a pass2Step
  suffices hgen : ∀ (fl : List Table) (m : List (Str × Table)),
      (∀ q ∈ m, q.1 = keyOf q.2 ∧ q.2 ∈ tables) →
      p ∈ fl.foldl (fun m t => pass2Step tables filtered
        (lower (trimSuffix t.name (sl "s") ++ sl "_id")) m) m →
      p.1 = keyOf p.2 ∧ p.2 ∈ tables by
    refine hgen filtered _ ?_ hp
    intro q hq
    rcases mem_writeAll _ _ _ hq with h1 | h1
    · exact pass1Writes_prop filtered tables q h1
    · simp at h1
  intro fl
  induction fl with
  | nil =>
    intro m hm hp2
    exact hm p hp2
  | cons t ts ih =>
    intro m hm hp2
    rw [List.foldl_cons] at hp2
    refine ih _ ?_ hp2
    intro q hq
    rcases pass2Step_mem tables filtered _ m q hq with h1 | h1
    · exact h1
    · exact hm q h1

theorem lookup_isSome_writeAll_of {α : Type} (ws m : List (Str × α)) (k : Str)
    (h : (lookupEnt m k).isSome = true) :
    (lookupEnt (writeAll ws m) k).isSome = true := by
  rw [lookupEnt_writeAll]
  rcases lastW ws k with _ | u
  · exact h
  · rfl

theorem lookup_isSome_pass2Step (allT filtered : List Table) (expected : Str) :
    ∀ (m : List (Str × Table)) (k : Str),
      (lookupEnt m k).isSome = true →
      (lookupEnt (pass2Step allT filtered expected m) k).isSome = true := by
  induction allT with
  | nil => intro m k h; exact h
  | cons u us ih =>
    intro m k h
    unfold pass2Step
    rw [List.foldl_cons]
    show (lookupEnt (pass2Step us filtered expected _) k).isSome = true
    apply ih
    split
    · exact h
    · exact lookup_isSome_writeAll_of _ _ _ h

theorem lookup_isSome_relatedFold (tables filtered : List Table) :
    ∀ (fl : List Table) (m : List (Str × Table)) (k : Str),
      (lookupEnt m k).isSome = true →
      (lookupEnt (fl.foldl (fun m t => pass2Step tables filtered
        (lower (trimSuffix t.name (sl "s") ++ sl "_id")) m) m) k).isSome = true := by
  intro fl
  induction fl with
  | nil => intro m k h; exact h
  | cons t ts ih =>
    intro m k h
    rw [List.foldl_cons]
    exact ih _ _ (lookup_isSome_pass2Step tables filtered _ m k h)

theorem pass2Step_isSome_of_match (filtered : List Table) (expected : Str)
    (u : Table) (l : Str) (w : Str) (hl : l ∈ splitLines u.sql)
    (hcn : colName l = some w) (hw : (lower w == expected) = true)
    (hnf : isTableInList u filtered = false) :
    ∀ (allT : List Table) (m : List (Str × Table)), u ∈ allT →
      (lookupEnt (pass2Step allT filtered expected m) (keyOf u)).isSome = true := by
  intro allT
  induction allT with
  | nil => intro m h; simp at h
  | cons v vs ih =>
    intro m hu
    unfold pass2Step
    rw [List.foldl_cons]
    show (lookupEnt (pass2Step vs filtered expected _) (keyOf u)).isSome = true
    rcases List.mem_cons.mp hu with rfl | hu
    · -- the step for u itself establishes the key
      by_cases hc : (isTableInList u filtered || !(lookupName m (keyOf u) == [])) = true
      · rw [if_pos hc]
        rcases Bool.or_eq_true_iff.mp hc with h1 | h1
        · rw [hnf] at h1
          exact absurd h1 (by simp)
        · -- the key is already present
          apply lookup_isSome_pass2Step
          unfold lookupName at h1
          rcases hlk : lookupEnt m (keyOf u) with _ | t'
          · rw [hlk] at h1
            simp at h1
          · rfl
      · rw [if_neg hc]
        apply lookup_isSome_pass2Step
        apply lookupEnt_writeAll_isSome _ _ _ u
        apply List.mem_filterMap.mpr
        refine ⟨l, hl, ?_⟩
        rw [hcn]
        simp only
        rw [if_pos hw]
    · -- u further down the list
      split
      · exact ih _ hu
      · exact ih _ hu

theorem relatedAssoc_isSome_outbound (filtered tables : List Table)
    (t : Table) (ht : t ∈ filtered) (l : Str) (hl : l ∈ splitLines t.sql)
    (w : Str) (hcn : colName l = some w)
    (hsfx : isSfx (sl "_id") (lower w) = true)
    (u : Table) (hu : u ∈ tables)
    (hname : (lower u.name == trimSuffix (lower w) (sl "_id") ||
      lower u.name == trimSuffix (lower w) (sl "_id") ++ ['s']) = true)
    (hnf : isTableInList u filtered = false) :
    (lookupEnt (relatedAssoc filtered tables) (keyOf u)).isSome = true := by
  unfold relatedAssoc
  apply lookup_isSome_relatedFold
  apply lookupEnt_writeAll_isSome _ _ _ u
  unfold pass1Writes
  apply List.mem_flatMap.mpr
  refine ⟨t, ht, ?_⟩
  apply List.mem_flatMap.mpr
  refine ⟨l, hl, ?_⟩
  rw [hcn]
  simp only
  rw [if_pos hsfx]
  apply List.mem_filterMap.mpr
  refine ⟨u, hu, ?_⟩
  rw [if_pos (by rw [hname, hnf]; rfl)]

theorem relatedAssoc_isSome_inbound (filtered tables : List Table)
    (t : Table) (ht : t ∈ filtered)
    (u : Table) (hu : u ∈ tables) (hnf : isTableInList u filtered = false)
    (l : Str) (hl : l ∈ splitLines u.sql) (w : Str) (hcn : colName l = some w)
    (hw : (lower w == lower (trimSuffix t.name (sl "s") ++ sl "_id")) = true) :
    (lookupEnt (relatedAssoc filtered tables) (keyOf u)).isSome = true := by
  unfold relatedAssoc
  suffices hgen : ∀ (fl : List Table) (m : List (Str × Table)), t ∈ fl →
      (lookupEnt (fl.foldl (fun m t => pass2Step tables filtered
        (lower (trimSuffix t.name (sl "s") ++ sl "_id")) m) m) (keyOf u)).isSome = true by
    exact hgen filtered _ ht
  intro fl
  induction fl with
  | nil => intro m h; simp at h
  | cons t' ts ih =>
    intro m hm
    rw [List.foldl_cons]
    rcases List.mem_cons.mp hm with rfl | hm
    · apply lookup_isSome_relatedFold
      exact pass2Step_isSome_of_match filtered _ u l w hl hcn hw hnf tables m hu
    · exact ih _ hm

theorem nodupKeys_pass2Step (allT filtered : List Table) (expected : Str) :
    ∀ (m : List (Str × Table)), NodupKeys m →
      NodupKeys (pass2Step allT filtered expected m) := by
  induction allT with
  | nil => intro m h; exact h
  | cons u us ih =>
    intro m h
    unfold pass2Step
    rw [List.foldl_cons]
    show NodupKeys (pass2Step us filtered expected _)
    apply ih
    split
    · exact h
    · exact nodupKeys_writeAll _ _ h

theorem nodupKeys_relatedAssoc (filtered tables : List Table) :
    NodupKeys (relatedAssoc filtered tables) := by
  unfold relatedAssoc
  suffices hgen : ∀ (fl : List Table) (m : List (Str × Table)), NodupKeys m →
      NodupKeys (fl.foldl (fun m t => pass2Step tables filtered
        (lower (trimSuffix t.name (sl "s") ++ sl "_id")) m) m) by
    apply hgen
    apply nodupKeys_writeAll
    show (([] : List (Str × Table)).map Prod.fst).Nodup
    simp
  intro fl
  induction fl with
  | nil => intro m h; exact h
  | cons t' ts ih =>
    intro m h
    rw [List.foldl_cons]
    exact ih _ (nodupKeys_pass2Step tables filtered _ m h)

theorem notInFiltered (tables : List Table) (pfx : Str) (u : Table)
    (h : pfxMatches pfx u = false) :
    isTableInList u (filterTablesByPrefix tables pfx) = false := by
  rcases hb : isTableInList u (filterTablesByPrefix tables pfx) with _ | _
  · rfl
  · exfalso
    unfold isTableInList at hb
    rcases List.any_eq_true.mp hb with ⟨v, hv, hveq⟩
    have hvp : pfxMatches pfx v = true :=
      (List.mem_filter.mp hv).2
    have hnm : v.name = u.name := by
      have := (Bool.and_eq_true _ _).mp hveq
      simpa using this.2
    rw [show pfxMatches pfx v = isPfx (lower pfx ++ ['_']) (lower v.name) from rfl,
      hnm] at hvp
    rw [show pfxMatches pfx u = isPfx (lower pfx ++ ['_']) (lower u.name) from rfl] at h
    rw [hvp] at h
    simp at h


theorem related_mem_of_key (filtered tables : List Table) (u : Table)
    (hdu : (∀ c ∈ u.schema, ¬c = '.') ∧ (∀ c ∈ u.name, ¬c = '.'))
    (htab : ∀ v ∈ tables, (∀ c ∈ v.schema, ¬c = '.') ∧ (∀ c ∈ v.name, ¬c = '.'))
    (hsome : (lookupEnt (relatedAssoc filtered tables) (keyOf u)).isSome = true) :
    ∃ r ∈ findRelatedTables filtered tables,
      r.schema = u.schema ∧ r.name = u.name := by
  rcases hlk : lookupEnt (relatedAssoc filtered tables) (keyOf u) with _ | r
  · rw [hlk] at hsome
    simp at hsome
  · have hent := lookupEnt_eq_some_mem _ _ _ hlk
    have hmem := relatedAssoc_mem filtered tables _ hent
    have hkey : keyOf u = keyOf r := hmem.1
    have hrt : r ∈ tables := hmem.2
    have hdr := htab r hrt
    rw [keyOf_eq u, keyOf_eq r] at hkey
    have hsp := key_split u.schema u.name r.schema r.name hdu.1 hdr.1 hkey
    refine ⟨r, mem_map_snd _ _ hent, hsp.1.symm, hsp.2.symm⟩

theorem related_pairwise (filtered tables : List Table) :
    (findRelatedTables filtered tables).Pairwise
      (fun a b => ¬(a.schema = b.schema ∧ a.name = b.name)) := by
  unfold findRelatedTables
  apply List.pairwise_map.mpr
  have hnd : (relatedAssoc filtered tables).Pairwise
      (fun p q => p.1 ≠ q.1) := by
    have := nodupKeys_relatedAssoc filtered tables
    unfold NodupKeys at this
    unfold List.Nodup at this
    exact List.pairwise_map.mp this
  apply List.Pairwise.imp_of_mem ?_ hnd
  intro a b ha hb hne
  intro hab
  apply hne
  have hka := (relatedAssoc_mem filtered tables a ha).1
  have hkb := (relatedAssoc_mem filtered tables b hb).1
  rw [hka, hkb]
  unfold keyOf
  rw [hab.1, hab.2]

/-- C4: outbound, a `_id` column of a prefix-matched table pulls in every
non-prefix-matched table named like its base or naive plural;
inbound, every non-prefix-matched table with a `<singular>_id` column for a
prefix-matched table is pulled in; the related set is deduplicated by
(schema, name). -/
theorem c4_relationship_inference_coverage (input : List Str) (pfx : Str) :
    (∀ t ∈ filterTablesByPrefix (parseTables input) pfx,
      ∀ l ∈ splitLines t.sql, ∀ w, colName l = some w →
      isSfx (sl "_id") (lower w) = true →
      ∀ u ∈ parseTables input, pfxMatches pfx u = false →
      (lower u.name = trimSuffix (lower w) (sl "_id") ∨
       lower u.name = trimSuffix (lower w) (sl "_id") ++ ['s']) →
      ∃ r ∈ findRelatedTables (filterTablesByPrefix (parseTables input) pfx)
          (parseTables input), r.schema = u.schema ∧ r.name = u.name) ∧
    (∀ t ∈ filterTablesByPrefix (parseTables input) pfx,
      ∀ u ∈ parseTables input, pfxMatches pfx u = false →
      ∀ l ∈ splitLines u.sql, ∀ w, colName l = some w →
      lower w = lower (trimSuffix t.name (sl "s") ++ sl "_id") →
      ∃ r ∈ findRelatedTables (filterTablesByPrefix (parseTables input) pfx)
          (parseTables input), r.schema = u.schema ∧ r.name = u.name) ∧
    (findRelatedTables (filterTablesByPrefix (parseTables input) pfx)
        (parseTables input)).Pairwise
      (fun a b => ¬(a.schema = b.schema ∧ a.name = b.name)) := by
  refine ⟨?_, ?_, related_pairwise _ _⟩
  · intro t ht l hl w hcn hsfx u hu hnp hname
    apply related_mem_of_key _ _ u (parseTables_dot_free input u hu)
      (fun v hv => parseTables_dot_free input v hv)
    apply relatedAssoc_isSome_outbound _ _ t ht l hl w hcn hsfx u hu
    · rcases hname with h1 | h1 <;> simp [h1]
    · exact notInFiltered _ pfx u hnp
  · intro t ht u hu hnp l hl w hcn hw
    apply related_mem_of_key _ _ u (parseTables_dot_free input u hu)
      (fun v hv => parseTables_dot_free input v hv)
    exact relatedAssoc_isSome_inbound _ _ t ht u hu
      (notInFiltered _ pfx u hnp) l hl w hcn (by simp [hw])

theorem c4_relationship_inference_witness :
    (∃ r ∈ findRelatedTables
        (filterTablesByPrefix (parseTables demoInput) (sl "a"))
        (parseTables demoInput), r.schema = usTable.schema ∧ r.name = usTable.name) ∧
    (∃ r ∈ findRelatedTables
        (filterTablesByPrefix (parseTables demoInput2) (sl "b"))
        (parseTables demoInput2), r.schema = sl "public" ∧ r.name = sl "zz") := by
  constructor
  · exact (c4_relationship_inference_coverage demoInput (sl "a")).1
      ⟨sl "a_b", sl "public", sl "CREATE TABLE a_b (\nu_id x y\np_id x y\n);\n"⟩
      (by decide) (sl "u_id x y") (by decide) (sl "u_id") (by decide) (by decide)
      usTable (by decide) (by decide) (by decide)
  · exact (c4_relationship_inference_coverage demoInput2 (sl "b")).2.1
      ⟨sl "b_cs", sl "public", sl "CREATE TABLE b_cs (\nw t\n);\n"⟩
      (by decide)
      ⟨sl "zz", sl "public", sl "CREATE TABLE zz (\nb_c_id x y\n);\n"⟩
      (by decide) (by decide) (sl "b_c_id x y") (by decide) (sl "b_c_id")
      (by decide) (by decide)


/-- C2 counterexample: the per-part double-quoted qualified form is not
captured at all: no (schema, name) pair is extracted and the statement
yields no table. -/
theorem c2_quoted_qualified_not_captured :
    extractTableName (sl "CREATE TABLE \"s\".\"n\" (") = none ∧
    parseTables [sl "CREATE TABLE \"s\".\"n\" (", sl "    id t", sl ");"] = [] :=
  ⟨by decide, by decide⟩

/-- C2 as amended: the extractor recovers (schema, name) exactly for the
forms `schema.name`, `"schema.name"`, `name` and `"name"`, defaulting the
schema to `public` when unqualified; the per-part quoted form
`"schema"."name"` is the one the counterexample shows is dropped. -/
theorem c2_table_name_extraction (sch nm rest : Str) (hs1 : sch ≠ [])
    (hs2 : ∀ c ∈ sch, isWordChar c = true) (hn1 : nm ≠ [])
    (hn2 : ∀ c ∈ nm, isWordChar c = true) :
    extractTableName (sl "CREATE TABLE " ++ sch ++ sl "." ++ nm ++ sl " (" ++ rest) =
      some (sch, nm) ∧
    extractTableName (sl "CREATE TABLE \"" ++ sch ++ sl "." ++ nm ++ sl "\" (" ++ rest) =
      some (sch, nm) ∧
    extractTableName (sl "CREATE TABLE " ++ nm ++ sl " (" ++ rest) =
      some (sl "public", nm) ∧
    extractTableName (sl "CREATE TABLE \"" ++ nm ++ sl "\" (" ++ rest) =
      some (sl "public", nm) :=
  ⟨extract_qualified sch nm rest hs1 hs2 hn1 hn2,
   extract_quoted_qualified sch nm rest hs1 hs2 hn1 hn2,
   extract_bare nm rest hn1 hn2,
   extract_quoted_bare nm rest hn1 hn2⟩

theorem c2_table_name_extraction_witness :
    extractTableName (sl "CREATE TABLE " ++ sl "s0" ++ sl "." ++ sl "n0" ++ sl " (" ++ []) =
      some (sl "s0", sl "n0") ∧
    extractTableName (sl "CREATE TABLE \"" ++ sl "s0" ++ sl "." ++ sl "n0" ++ sl "\" (" ++ []) =
      some (sl "s0", sl "n0") ∧
    extractTableName (sl "CREATE TABLE " ++ sl "n0" ++ sl " (" ++ []) =
      some (sl "public", sl "n0") ∧
    extractTableName (sl "CREATE TABLE \"" ++ sl "n0" ++ sl "\" (" ++ []) =
      some (sl "public", sl "n0") :=
  c2_table_name_extraction (sl "s0") (sl "n0") [] (by decide) (by decide)
    (by decide) (by decide)

theorem c3_fk_inclusion_witness :
    c3FK ∈ findRelevantForeignKeys [c3Table] [] [sl "it_items"] [c3FK] ↔
      c3FK ∈ [c3FK] ∧
        (isTableInListFold c3FK.fromSchema c3FK.fromTable [c3Table] = true ∨
         isTableInListFold c3FK.toSchema c3FK.toTable [c3Table] = true ∨
         isWhitelistedName [sl "it_items"] c3FK.fromTable = true ∨
         isWhitelistedName [sl "it_items"] c3FK.toTable = true) :=
  c3_fk_inclusion_characterization [c3Table] [] [sl "it_items"] [c3FK] c3FK
    (by decide)

theorem c5_scanner_termination_witness :
    closeIdx 1 [sl "x t,", sl ");"] = some 1 ∧
    parseTablesAux [sl "x t,", sl ");"] (some (usTable, 1)) [] =
      parseTablesAux ([sl "x t,", sl ");"].drop 2) none
        (extendTable usTable ([sl "x t,", sl ");"].take 2) :: []) :=
  ⟨by decide, (c5_scanner_termination [sl "x t,", sl ");"] usTable 1 []).1 1 (by decide)⟩

theorem c8_used_enums_public_witness :
    (⟨sl "st", sl "public",
      sl "CREATE TYPE public.st AS ENUM (\n    'a'\n);\n"⟩ : EnumType) ∈
        findUsedEnums [demoEnumTable] (parseEnums demoEnumInput) ∧
    lower (⟨sl "st", sl "public",
      sl "CREATE TYPE public.st AS ENUM (\n    'a'\n);\n"⟩ : EnumType).schema =
        sl "public" :=
  ⟨by decide, c8_used_enums_public_schema [demoEnumTable] demoEnumInput _ (by decide)⟩

theorem c9_whitelist_inert_witness :
    (∀ t ∈ [usTable], eqFold t.name (sl "qq") = false) ∧
    ([usTable].map (emitRelatedTable (sl "qq" :: [])) =
        [usTable].map (emitRelatedTable []) ∧
      (∀ fk ∈ [c9FK],
        (eqFold fk.fromTable (sl "qq") || eqFold fk.toTable (sl "qq")) = true →
        ∃ fk' ∈ findRelevantForeignKeys [] [usTable] (sl "qq" :: []) [c9FK],
          fk'.sql = fk.sql)) :=
  ⟨by decide,
   c9_whitelist_inert_for_tables_not_fks [] [usTable] [] (sl "qq") [c9FK]
     (by decide)⟩

end PgStruct
